import Mathlib

/-! Class `fixed`: Q40.24 fixed-point arithmetic on a 64-bit signed integer.

Shallow embedding of `src/fixed.hpp` (and, where the two differ, of the older
variant `src/fixed.h`).  The storage `ff` is an `int64_t`; it is modelled as an
`Int` together with the proof that it lies in the signed 64-bit range.

Machine arithmetic conventions used throughout:

* 64-bit signed `+ - *`, unary minus and `<<` are taken with two's-complement
  wrap-around (`wrap64`), the behaviour of the targeted compilers;
* `>>` on a signed value is the arithmetic shift, i.e. floor division by a power
  of two;
* the native integer divide truncates toward zero and faults on a zero divisor
  (and on `INT64_MIN / -1`); it is modelled as a function into `Except Fault`;
* `int` is 32 bits wide and `long` is 64 bits wide;
* the values of `double` are the rationals `m * 2^e` with `|m| < 2^53`, and every
  `double` operation rounds its exact result to the nearest such value, ties to
  even (`round_double`).
-/

namespace FixedQ

/-! ## Machine integers -/

/-- Two's-complement reduction of an integer to the signed 64-bit range. -/
def wrap64 (x : Int) : Int := (x + 2 ^ 63) % 2 ^ 64 - 2 ^ 63

/-- Two's-complement reduction of an integer to the signed 32-bit range. -/
def wrap32 (x : Int) : Int := (x + 2 ^ 31) % 2 ^ 32 - 2 ^ 31

/-- Reduction of an integer to the unsigned 64-bit range. -/
def wrapU64 (x : Int) : Int := x % 2 ^ 64

/-- Range of `int64_t`. -/
def InInt64 (x : Int) : Prop := -2 ^ 63 ≤ x ∧ x < 2 ^ 63

/-- Range of `int32_t`. -/
def InInt32 (x : Int) : Prop := -2 ^ 31 ≤ x ∧ x < 2 ^ 31

/-- Range of `uint64_t`. -/
def InUInt64 (x : Int) : Prop := 0 ≤ x ∧ x < 2 ^ 64

instance (x : Int) : Decidable (InInt64 x) := by unfold InInt64; infer_instance
instance (x : Int) : Decidable (InInt32 x) := by unfold InInt32; infer_instance
instance (x : Int) : Decidable (InUInt64 x) := by unfold InUInt64; infer_instance

theorem wrap64_inInt64 (x : Int) : InInt64 (wrap64 x) := by
  unfold InInt64 wrap64
  have h1 := Int.emod_nonneg (x + 2 ^ 63) (by norm_num : (2 : Int) ^ 64 ≠ 0)
  have h2 := Int.emod_lt_of_pos (x + 2 ^ 63) (by norm_num : (0 : Int) < 2 ^ 64)
  constructor <;> omega

/-- 64-bit signed addition. -/
def add64 (a b : Int) : Int := wrap64 (a + b)
/-- 64-bit signed subtraction. -/
def sub64 (a b : Int) : Int := wrap64 (a - b)
/-- 64-bit signed multiplication. -/
def mul64 (a b : Int) : Int := wrap64 (a * b)
/-- 64-bit signed unary minus. -/
def neg64 (a : Int) : Int := wrap64 (-a)
/-- 64-bit left shift `a << n`. -/
def shl64 (a : Int) (n : Nat) : Int := wrap64 (a * 2 ^ n)
/-- Arithmetic right shift `a >> n` (floor division by `2 ^ n`). -/
def shr (a : Int) (n : Nat) : Int := a / 2 ^ n
/-- 32-bit signed unary minus (on `int`). -/
def neg32 (a : Int) : Int := wrap32 (-a)

/-- Faults of the native integer divide instruction. -/
inductive Fault where
  | div_by_zero
  | div_overflow
  deriving DecidableEq, Repr

/-- Native signed 64-bit divide `a / b`: truncates toward zero; a zero divisor
faults, and so does `INT64_MIN / -1`. -/
def idiv64 (a b : Int) : Except Fault Int :=
  if b = 0 then Except.error Fault.div_by_zero
  else if a = -2 ^ 63 ∧ b = -1 then Except.error Fault.div_overflow
  else Except.ok (Int.tdiv a b)

/-- Native unsigned 64-bit divide: both operands are first converted to
`uint64_t`; a zero divisor faults. -/
def udiv64 (a b : Int) : Except Fault Int :=
  if wrapU64 b = 0 then Except.error Fault.div_by_zero
  else Except.ok (wrapU64 a / wrapU64 b)

/-- Logical negation `!x` of an integer, promoted back to `int`. -/
def logical_not (x : Int) : Int := if x = 0 then 1 else 0

/-! ## The class -/

/-- The class `fixed`: one `int64_t` field `ff`. -/
structure fixed where
  ff : Int
  inRange : InInt64 ff
  deriving DecidableEq

deriving instance DecidableEq for Except

/-- Assignment of a 64-bit result to the field `ff` (conversion to `int64_t`,
the identity on values already in range). -/
def fixed.store (v : Int) : fixed := ⟨wrap64 v, wrap64_inInt64 v⟩

/-- Default constructor `fixed() { ff = 0; }`. -/
def fixed.default : fixed := fixed.store 0

/-- Constructors `fixed(int8_t)`, `fixed(int16_t)`, `fixed(int32_t)`,
`fixed(int64_t)`: `a = int64_t(x); ff = (a < 0) ? -((-a)<<24) : (a<<24)`. -/
def fixed.from_signed (x : Int) : fixed :=
  let a := wrap64 x
  fixed.store (if a < 0 then neg64 (shl64 (neg64 a) 24) else shl64 a 24)

/-- Constructors `fixed(uint8_t)` .. `fixed(uint64_t)`:
`ff = int64_t(x) << 24`. -/
def fixed.from_unsigned (x : Int) : fixed :=
  fixed.store (shl64 (wrap64 x) 24)

/-- Unary minus `{ fixed z; z.ff = -ff; return z; }`. -/
def fixed.operator_neg (self : fixed) : fixed :=
  fixed.store (neg64 self.ff)

/-- Conversion `operator int()`:
`a = ff; if(a < 0) return -int((-a)>>24); else return int(a>>24);`. -/
def fixed.operator_int (self : fixed) : Int :=
  let a := self.ff
  if a < 0 then neg32 (wrap32 (shr (neg64 a) 24)) else wrap32 (shr a 24)

/-- Conversion `operator long()`:
`a = ff; if(a < 0) return -long((-a)>>24); else return long(a>>24);`. -/
def fixed.operator_long (self : fixed) : Int :=
  let a := self.ff
  if a < 0 then neg64 (wrap64 (shr (neg64 a) 24)) else wrap64 (shr a 24)

/-- Binary `operator +`: `z.ff = ff + x.ff`. -/
def fixed.operator_add (self x : fixed) : fixed :=
  fixed.store (add64 self.ff x.ff)

/-- Binary `operator -`: `z.ff = ff - x.ff`. -/
def fixed.operator_sub (self x : fixed) : fixed :=
  fixed.store (sub64 self.ff x.ff)

/-- Comparison `operator ==`: `ff == x.ff`. -/
def fixed.operator_eq (self x : fixed) : Bool := decide (self.ff = x.ff)
/-- Comparison `operator <`: `ff < x.ff`. -/
def fixed.operator_lt (self x : fixed) : Bool := decide (self.ff < x.ff)
/-- Comparison `operator >`: `ff > x.ff`. -/
def fixed.operator_gt (self x : fixed) : Bool := decide (self.ff > x.ff)
/-- Comparison `operator >=`: `ff >= x.ff`. -/
def fixed.operator_ge (self x : fixed) : Bool := decide (self.ff ≥ x.ff)

/-- Sign extraction shared by multiply and divide:
`if(a < 0) { a = -a; sign ^= 1; }`. -/
def strip_sign (a : Int) (sign : Bool) : Int × Bool :=
  if a < 0 then (neg64 a, xor sign true) else (a, sign)

/-- Binary `operator *`:
`a >>= 8; b >>= 8; a *= b; a >>= 8; if(sign) a = -a; z.ff = a`. -/
def fixed.operator_mul (self x : fixed) : fixed :=
  let sa := strip_sign self.ff false
  let sb := strip_sign x.ff sa.2
  let a := shr sa.1 8
  let b := shr sb.1 8
  let a := mul64 a b
  let a := shr a 8
  let a := if sb.2 != false then neg64 a else a
  fixed.store a

/-- Constant `(const int64_t) (( !(uint64_t(0)) ) >> 2)`, commented in the
source as "just very big positive value". -/
def big_positive : Int := wrap64 (shr (logical_not (wrapU64 0)) 2)

/-- Constant `(const int64_t) (-( ( !(uint64_t(0)) ) >> 2))`, commented in the
source as "just very big negative value". -/
def big_negative : Int := wrap64 (neg32 (shr (logical_not (wrapU64 0)) 2))

/-- Body of `operator /` of `fixed.hpp` (integer-division configuration), with
the two constants of its zero-divisor branch taken as parameters. -/
def fixed.operator_div_with (pos neg : Int) (self x : fixed) : Except Fault fixed :=
  let sa := strip_sign self.ff false
  let sb := strip_sign x.ff sa.2
  let a := shl64 sa.1 10
  let b := shr sb.1 8
  if b ≠ 0 then
    (idiv64 a b).map (fun q =>
      let a := shl64 q 6
      let a := if sb.2 != false then neg64 a else a
      fixed.store a)
  else
    if mul64 self.ff x.ff ≥ 0 then Except.ok (fixed.store pos)
    else Except.ok (fixed.store neg)

/-- Binary `operator /` of `fixed.hpp`, integer-division configuration. -/
def fixed.operator_div (self x : fixed) : Except Fault fixed :=
  fixed.operator_div_with big_positive big_negative self x

/-- Compound `operator /=` of `fixed.hpp`, integer-division configuration (the
body of `operator /` duplicated, writing to `ff`). -/
def fixed.operator_div_assign (self x : fixed) : Except Fault fixed :=
  let sa := strip_sign self.ff false
  let sb := strip_sign x.ff sa.2
  let a := shl64 sa.1 10
  let b := shr sb.1 8
  if b ≠ 0 then
    (idiv64 a b).map (fun q =>
      let a := shl64 q 6
      let a := if sb.2 != false then neg64 a else a
      fixed.store a)
  else
    if mul64 self.ff x.ff ≥ 0 then Except.ok (fixed.store big_positive)
    else Except.ok (fixed.store big_negative)

/-- Binary `operator /` of the older header `fixed.h`:
`a <<= 10; b >>= 8; a /= b; a <<= 6;` with no test of the divisor. -/
def fixed_h.operator_div (self x : fixed) : Except Fault fixed :=
  let sa := strip_sign self.ff false
  let sb := strip_sign x.ff sa.2
  let a := shl64 sa.1 10
  let b := shr sb.1 8
  (idiv64 a b).map (fun q =>
    let a := shl64 q 6
    let a := if sb.2 != false then neg64 a else a
    fixed.store a)

/-- Compound `operator /=` of the older header `fixed.h` (same body). -/
def fixed_h.operator_div_assign (self x : fixed) : Except Fault fixed :=
  let sa := strip_sign self.ff false
  let sb := strip_sign x.ff sa.2
  let a := shl64 sa.1 10
  let b := shr sb.1 8
  (idiv64 a b).map (fun q =>
    let a := shl64 q 6
    let a := if sb.2 != false then neg64 a else a
    fixed.store a)

/-- Operators `fixed / int16_t`, `/ int32_t`, `/ int64_t` of `fixed.hpp` (the
operand is promoted to `int64_t`):
`if(x != 0) { z.ff = ff / x; return (*this); } else return operator /(fixed(x));`. -/
def fixed.operator_div_native (self : fixed) (x : Int) : Except Fault fixed :=
  if x ≠ 0 then
    (idiv64 self.ff x).map (fun _ => self)
  else
    fixed.operator_div self (fixed.from_signed x)

/-- Operators `fixed / uint16_t`, `/ uint32_t` of `fixed.hpp` (the operand is
converted to `int64_t` and the divide is signed; `fixed(x)` is the unsigned
constructor): same body as above. -/
def fixed.operator_div_unsigned (self : fixed) (x : Int) : Except Fault fixed :=
  if x ≠ 0 then
    (idiv64 self.ff x).map (fun _ => self)
  else
    fixed.operator_div self (fixed.from_unsigned x)

/-- Operator `fixed / uint64_t` of `fixed.hpp` (the divide is unsigned):
`if(x != 0) { z.ff = ff / x; return (*this); } else return operator /(fixed(x));`. -/
def fixed.operator_div_uint64 (self : fixed) (x : Int) : Except Fault fixed :=
  if x ≠ 0 then
    (udiv64 self.ff x).map (fun _ => self)
  else
    fixed.operator_div self (fixed.from_unsigned x)

/-- Operators `fixed /= int16_t`, `/= int32_t`, `/= int64_t` of `fixed.hpp`:
`if(x != 0) { ff /= x; return (*this); } else return operator /=(fixed(x));`. -/
def fixed.operator_div_assign_native (self : fixed) (x : Int) : Except Fault fixed :=
  if x ≠ 0 then
    (idiv64 self.ff x).map fixed.store
  else
    fixed.operator_div_assign self (fixed.from_signed x)

/-- Operators `fixed /= uint16_t`, `/= uint32_t` of `fixed.hpp` (signed divide,
unsigned constructor): same body as above. -/
def fixed.operator_div_assign_unsigned (self : fixed) (x : Int) : Except Fault fixed :=
  if x ≠ 0 then
    (idiv64 self.ff x).map fixed.store
  else
    fixed.operator_div_assign self (fixed.from_unsigned x)

/-- Operator `fixed /= uint64_t` of `fixed.hpp`:
`if(x != 0) { ff /= x; return (*this); } else return operator /=(fixed(x));`. -/
def fixed.operator_div_assign_uint64 (self : fixed) (x : Int) : Except Fault fixed :=
  if x ≠ 0 then
    (udiv64 self.ff x).map fixed.store
  else
    fixed.operator_div_assign self (fixed.from_unsigned x)

/-- Operators `fixed /= int16_t` .. `/= uint32_t` of the older header `fixed.h`:
`{ ff /= x; return (*this); }`. -/
def fixed_h.operator_div_assign_native (self : fixed) (x : Int) : Except Fault fixed :=
  (idiv64 self.ff x).map fixed.store

/-- Comparison `operator !=`: `!operator ==(x)`. -/
def fixed.operator_ne (self x : fixed) : Bool := !(self.operator_eq x)
/-- Comparison `operator <=`: `ff <= x.ff`. -/
def fixed.operator_le (self x : fixed) : Bool := decide (self.ff ≤ x.ff)

/-- Operators `fixed * int16_t`, `* int32_t`, `* int64_t`, `* uint16_t`,
`* uint32_t` (the operand is converted to `int64_t`):
`{ fixed z; z.ff = ff * x; return z; }`. -/
def fixed.operator_mul_native (self : fixed) (x : Int) : fixed :=
  fixed.store (mul64 self.ff x)

/-- Operators `fixed + int16_t`, `+ int32_t`, `+ int64_t` of `fixed.hpp`:
`a = int64_t(x); if(a < 0) {z.ff = ff - ((-a)<<24);} else {z.ff = ff + (a<<24);}`. -/
def fixed.operator_add_native (self : fixed) (x : Int) : fixed :=
  let a := wrap64 x
  if a < 0 then fixed.store (sub64 self.ff (shl64 (neg64 a) 24))
  else fixed.store (add64 self.ff (shl64 a 24))

/-- Operators `fixed - int16_t`, `- int32_t`, `- int64_t` of `fixed.hpp`:
`a = int64_t(x); if(a < 0) {z.ff = ff + ((-a)<<24);} else {z.ff = ff - (a<<24);}`. -/
def fixed.operator_sub_native (self : fixed) (x : Int) : fixed :=
  let a := wrap64 x
  if a < 0 then fixed.store (add64 self.ff (shl64 (neg64 a) 24))
  else fixed.store (sub64 self.ff (shl64 a 24))

/-- Operators `fixed + uint16_t`, `+ uint32_t`, `+ uint64_t` of `fixed.hpp`:
`z.ff = ff + int64_t(x) << 24;`.  In C++ `+` binds tighter than `<<`, so the
expression is `(ff + int64_t(x)) << 24`. -/
def fixed.operator_add_unsigned (self : fixed) (x : Int) : fixed :=
  fixed.store (shl64 (add64 self.ff (wrap64 x)) 24)

/-- Operators `fixed - uint16_t`, `- uint32_t`, `- uint64_t` of `fixed.hpp`:
`z.ff = ff - int64_t(x) << 24;`, parsed as `(ff - int64_t(x)) << 24`. -/
def fixed.operator_sub_unsigned (self : fixed) (x : Int) : fixed :=
  fixed.store (shl64 (sub64 self.ff (wrap64 x)) 24)

/-- Operators `fixed += int16_t`, `+= int32_t`, `+= int64_t`:
`a = int64_t(x); if(a < 0) {ff -= ((-a)<<24);} else {ff += (a<<24);}`. -/
def fixed.operator_add_assign_native (self : fixed) (x : Int) : fixed :=
  let a := wrap64 x
  if a < 0 then fixed.store (sub64 self.ff (shl64 (neg64 a) 24))
  else fixed.store (add64 self.ff (shl64 a 24))

/-- Operators `fixed -= int16_t`, `-= int32_t`, `-= int64_t`:
`a = int64_t(x); if(a < 0) {ff += ((-a)<<24);} else {ff -= (a<<24);}`. -/
def fixed.operator_sub_assign_native (self : fixed) (x : Int) : fixed :=
  let a := wrap64 x
  if a < 0 then fixed.store (add64 self.ff (shl64 (neg64 a) 24))
  else fixed.store (sub64 self.ff (shl64 a 24))

/-- Operators `fixed += uint16_t`, `+= uint32_t`, `+= uint64_t`:
`ff += int64_t(x) << 24;` (the shift is evaluated before the assignment). -/
def fixed.operator_add_assign_unsigned (self : fixed) (x : Int) : fixed :=
  fixed.store (add64 self.ff (shl64 (wrap64 x) 24))

/-- Operators `fixed -= uint16_t`, `-= uint32_t`, `-= uint64_t`:
`ff -= int64_t(x) << 24;`. -/
def fixed.operator_sub_assign_unsigned (self : fixed) (x : Int) : fixed :=
  fixed.store (sub64 self.ff (shl64 (wrap64 x) 24))

/-- Conversion `int64_t(v)` of a floating-point value: the fractional part is
discarded (rounding toward zero). -/
def trunc_toward_zero (v : ℚ) : Int := if 0 ≤ v then ⌊v⌋ else ⌈v⌉

/-- Rounding of a real value to the nearest integer, ties to the even one. -/
def round_half_even (q : ℚ) : Int :=
  let f := ⌊q⌋
  let r := q - (f : ℚ)
  if r < 1 / 2 then f
  else if 1 / 2 < r then f + 1
  else if f % 2 = 0 then f else f + 1

/-- Rounding of a real value to `double` (IEEE-754 binary64, round to nearest,
ties to even): the nearest value with a 53-bit significand.  The values of
`double` are the rationals `m * 2^e` with `|m| < 2^53`; the limits of the
exponent are not modelled. -/
def round_double (q : ℚ) : ℚ :=
  if q = 0 then 0
  else
    let e := Int.log 2 |q| - 52
    (round_half_even (q / (2 : ℚ) ^ e) : ℚ) * (2 : ℚ) ^ e

/-- Constructor `fixed(double x)`, generic conversion:
`ff = int64_t( x * double(uint32_t(1)<<24) )`.  The argument is converted to the
parameter type `double`, the product is a `double` multiply (rounded), and
`int64_t(.)` discards the fractional part. -/
def fixed.from_double (x : ℚ) : fixed :=
  fixed.store (trunc_toward_zero (round_double (round_double x * ((2 : ℚ) ^ 24))))

/-- Conversion `operator double()`, generic conversion:
`return double(ff)/double(uint32_t(1)<<24)`: `double(ff)` rounds the storage to
53 significant bits, and the quotient is a `double` divide (rounded). -/
def fixed.operator_double (self : fixed) : ℚ :=
  round_double (round_double (self.ff : ℚ) / ((2 : ℚ) ^ 24))

/-- The combined sign of multiply and divide as a factor: `-1` when exactly one
of the two storages is negative, `+1` otherwise. -/
def parity_sign (a b : Int) : Int :=
  if (decide (a < 0) != decide (b < 0)) then -1 else 1

/-- Compound `operator +=`: `{ ff += x.ff; return (*this); }`; the result is the
new value of the object. -/
def fixed.operator_add_assign (self x : fixed) : fixed :=
  fixed.store (add64 self.ff x.ff)

/-- Compound `operator -=`: `{ ff -= x.ff; return (*this); }`. -/
def fixed.operator_sub_assign (self x : fixed) : fixed :=
  fixed.store (sub64 self.ff x.ff)

/-- Compound `operator *=` (the body of `operator *` duplicated):
`a >>= 8; b >>= 8; a *= b; a >>= 8; if(sign) a = -a; ff = a`. -/
def fixed.operator_mul_assign (self x : fixed) : fixed :=
  let sa := strip_sign self.ff false
  let sb := strip_sign x.ff sa.2
  let a := shr sa.1 8
  let b := shr sb.1 8
  let a := mul64 a b
  let a := shr a 8
  let a := if sb.2 != false then neg64 a else a
  fixed.store a

/-- Reduction of an integer to the unsigned 32-bit range. -/
def wrapU32 (x : Int) : Int := x % 2 ^ 32

/-- Fast path of `operator double()` (64-bit `double`), on bit patterns: `p` is
the pattern `z.i64` of `double(ff)` and the result is the pattern of the value
returned (`0` for `0.0`):
`a = z.i64; if( (a<<1) < (uint64_t(25)<<53) ) return 0.0;`
`z.i64 = a - (uint64_t(24) << 52); return z.f64;`. -/
def fixed.operator_double_fast_bits (p : Int) : Int :=
  let a := wrapU64 p
  if wrapU64 (a * 2 ^ 1) < wrapU64 (25 * 2 ^ 53) then 0
  else wrapU64 (a - wrapU64 (24 * 2 ^ 52))

/-- Fast path of `operator float()` (32-bit `float`), on bit patterns:
`a = z.i32; if( (a<<1) < (uint32_t(25)<<24) ) return 0.0;`
`z.i32 = a - (uint32_t(24) << 23); return z.f32;`. -/
def fixed.operator_float_fast_bits (p : Int) : Int :=
  let a := wrapU32 p
  if wrapU32 (a * 2 ^ 1) < wrapU32 (25 * 2 ^ 24) then 0
  else wrapU32 (a - wrapU32 (24 * 2 ^ 23))

/-! ## Basic facts about the machine-integer model -/

theorem wrap64_eq_self {x : Int} (h : InInt64 x) : wrap64 x = x := by
  unfold InInt64 at h
  unfold wrap64
  omega

theorem wrap64_wrap64 (x : Int) : wrap64 (wrap64 x) = wrap64 x :=
  wrap64_eq_self (wrap64_inInt64 x)

theorem fixed.store_ff (v : Int) : (fixed.store v).ff = wrap64 v := rfl

theorem fixed.wrap64_ff (a : fixed) : wrap64 a.ff = a.ff :=
  wrap64_eq_self a.inRange

theorem fixed.from_signed_ff_exact {x : Int} (h : -2 ^ 39 ≤ x ∧ x < 2 ^ 39) :
    (fixed.from_signed x).ff = x * 2 ^ 24 := by
  simp only [fixed.from_signed, fixed.store_ff, neg64, shl64, wrap64]
  split_ifs <;> omega

/-! ## Construction and conversion (C1 - C3) -/

/-- C1: integer round trip.  For every 32-bit signed `x`, `operator int` applied
to `fixed(x)` returns `x`; for every `x` of magnitude below `2^39`,
`operator long` (64-bit) applied to `fixed(x)` returns `x`. -/
theorem C1_integer_round_trip (x : Int) :
    (InInt32 x → (fixed.from_signed x).operator_int = x) ∧
    (|x| < 2 ^ 39 → (fixed.from_signed x).operator_long = x) := by
  constructor
  · intro h
    unfold InInt32 at h
    simp only [fixed.operator_int, fixed.from_signed, fixed.store_ff, neg32, neg64, shl64, shr,
      wrap64, wrap32]
    split_ifs <;> omega
  · intro h
    rw [abs_lt] at h
    simp only [fixed.operator_long, fixed.from_signed, fixed.store_ff, neg64, shl64, shr,
      wrap64]
    split_ifs <;> omega

/-- Witness for C1 at `x = -2^31` (the most negative `int`) and at
`x = -(2^39 - 1)`. -/
theorem C1_integer_round_trip_witness :
    (fixed.from_signed (-2147483648)).operator_int = -2147483648 ∧
    (fixed.from_signed (-549755813887)).operator_long = -549755813887 :=
  ⟨(C1_integer_round_trip (-2147483648)).1 (by decide),
   (C1_integer_round_trip (-549755813887)).2 (by norm_num)⟩

/-- C2: construction from an integer.  The signed constructor stores the 64-bit
wrap of `x * 2^24` for every signed 64-bit `x`, which is `x * 2^24` itself when
`-2^39 ≤ x < 2^39`; the unsigned constructor stores `x * 2^24` for every
`x < 2^39`, the same storage as the signed constructor. -/
theorem C2_construction_from_integer (x : Int) :
    (InInt64 x → (fixed.from_signed x).ff = wrap64 (x * 2 ^ 24)) ∧
    (-2 ^ 39 ≤ x ∧ x < 2 ^ 39 → (fixed.from_signed x).ff = x * 2 ^ 24) ∧
    (0 ≤ x ∧ x < 2 ^ 39 →
      (fixed.from_unsigned x).ff = x * 2 ^ 24 ∧
      (fixed.from_unsigned x).ff = (fixed.from_signed x).ff) := by
  refine ⟨?_, ?_, ?_⟩
  · intro h
    unfold InInt64 at h
    simp only [fixed.from_signed, fixed.store_ff, neg64, shl64, wrap64]
    split_ifs <;> omega
  · exact fun h => fixed.from_signed_ff_exact h
  · intro h
    simp only [fixed.from_signed, fixed.from_unsigned, fixed.store_ff, neg64, shl64, wrap64]
    split_ifs <;> omega

/-- Witness for C2: the signed constructor at `INT64_MIN` (wraps to storage 0)
and at `-2^39` (exact, storage `-2^63`), the unsigned one at `2^39 - 1`. -/
theorem C2_construction_from_integer_witness :
    (fixed.from_signed (-9223372036854775808)).ff = wrap64 (-9223372036854775808 * 2 ^ 24) ∧
    (fixed.from_signed (-549755813888)).ff = -549755813888 * 2 ^ 24 ∧
    (fixed.from_unsigned 549755813887).ff = 549755813887 * 2 ^ 24 ∧
    (fixed.from_unsigned 549755813887).ff = (fixed.from_signed 549755813887).ff :=
  ⟨(C2_construction_from_integer (-9223372036854775808)).1 (by decide),
   (C2_construction_from_integer (-549755813888)).2.1 (by decide),
   (C2_construction_from_integer 549755813887).2.2 (by decide)⟩

theorem tdiv_pow_of_neg {s : Int} (h : s < 0) (n : Nat) :
    Int.tdiv s (2 ^ n) = -((-s) / 2 ^ n) := by
  have h1 : s = -(-s) := by omega
  rw [h1, Int.neg_tdiv, Int.tdiv_eq_ediv (by omega) (by positivity)]
  simp

/-- C3: conversion to a signed integer truncates toward zero.  For every storage
`s` other than `-2^63`, `operator long` returns `sign(s) * floor(|s| / 2^24)`,
which is the quotient of `s` by `2^24` rounded toward zero, and `operator int`
returns the same value whenever that value fits in 32 bits. -/
theorem C3_conversion_truncates_toward_zero (a : fixed) (h : a.ff ≠ -2 ^ 63) :
    a.operator_long = Int.sign a.ff * (|a.ff| / 2 ^ 24) ∧
    a.operator_long = Int.tdiv a.ff (2 ^ 24) ∧
    (InInt32 (Int.tdiv a.ff (2 ^ 24)) → a.operator_int = Int.tdiv a.ff (2 ^ 24)) := by
  have hr := a.inRange
  unfold InInt64 at hr
  rcases lt_trichotomy a.ff 0 with hneg | hzero | hpos
  · have habs : |a.ff| = -a.ff := abs_of_neg hneg
    have hlong : a.operator_long = -((-a.ff) / 2 ^ 24) := by
      simp only [fixed.operator_long, neg64, shr, wrap64, if_pos hneg]
      omega
    refine ⟨?_, ?_, ?_⟩
    · rw [hlong, habs, Int.sign_eq_neg_one_of_neg hneg]; ring
    · rw [hlong, tdiv_pow_of_neg hneg]
    · rw [tdiv_pow_of_neg hneg]
      intro h32
      unfold InInt32 at h32
      simp only [fixed.operator_int, neg32, neg64, shr, wrap64, wrap32, if_pos hneg]
      omega
  · have hlong : a.operator_long = 0 := by
      simp [fixed.operator_long, hzero, shr, wrap64]
    refine ⟨?_, ?_, ?_⟩
    · rw [hlong, hzero]; simp
    · rw [hlong, hzero]; simp
    · intro _
      simp [fixed.operator_int, hzero, shr, wrap32]
  · have habs : |a.ff| = a.ff := abs_of_pos hpos
    have hnn : ¬ a.ff < 0 := by omega
    have hlong : a.operator_long = a.ff / 2 ^ 24 := by
      simp only [fixed.operator_long, shr, wrap64, if_neg hnn]
      omega
    have htd : Int.tdiv a.ff (2 ^ 24) = a.ff / 2 ^ 24 :=
      Int.tdiv_eq_ediv (by omega) (by positivity)
    refine ⟨?_, ?_, ?_⟩
    · rw [hlong, habs, Int.sign_eq_one_of_pos hpos]; ring
    · rw [hlong, htd]
    · rw [htd]
      intro h32
      unfold InInt32 at h32
      simp only [fixed.operator_int, shr, wrap32, if_neg hnn]
      omega

/-- Witness for C3 at storage `-(2^24) - 1`, which converts to `-1` (and not to
the floor `-2`). -/
theorem C3_conversion_truncates_toward_zero_witness :
    (fixed.store (-16777217)).ff ≠ -2 ^ 63 ∧
    (fixed.store (-16777217)).operator_long = Int.tdiv (fixed.store (-16777217)).ff (2 ^ 24) ∧
    Int.tdiv (fixed.store (-16777217)).ff (2 ^ 24) = -1 ∧
    (fixed.store (-16777217)).ff / 2 ^ 24 = -2 :=
  ⟨by decide,
   (C3_conversion_truncates_toward_zero (fixed.store (-16777217)) (by decide)).2.1,
   by decide, by decide⟩

/-! ## Addition and subtraction (C4 - C6) -/

/-- C4: addition and subtraction act directly on storage.  The storage of
`a + b` is `a.ff + b.ff` and that of `a - b` is `a.ff - b.ff`, each reduced to
the signed 64-bit range by wrap-around, hence exact whenever the mathematical
result lies in `[-2^63, 2^63)`. -/
theorem C4_add_sub_on_storage (a b : fixed) :
    (a.operator_add b).ff = wrap64 (a.ff + b.ff) ∧
    (a.operator_sub b).ff = wrap64 (a.ff - b.ff) ∧
    (InInt64 (a.ff + b.ff) → (a.operator_add b).ff = a.ff + b.ff) ∧
    (InInt64 (a.ff - b.ff) → (a.operator_sub b).ff = a.ff - b.ff) := by
  have hadd : (a.operator_add b).ff = wrap64 (a.ff + b.ff) := by
    simp only [fixed.operator_add, fixed.store_ff, add64, wrap64_wrap64]
  have hsub : (a.operator_sub b).ff = wrap64 (a.ff - b.ff) := by
    simp only [fixed.operator_sub, fixed.store_ff, sub64, wrap64_wrap64]
  refine ⟨hadd, hsub, ?_, ?_⟩
  · intro h
    rw [hadd, wrap64_eq_self h]
  · intro h
    rw [hsub, wrap64_eq_self h]

/-- Witness for C4: an exact sum and difference, and the wrap of
`INT64_MAX + 1` to `INT64_MIN`. -/
theorem C4_add_sub_on_storage_witness :
    ((fixed.store 5).operator_add (fixed.store (-7))).ff = (fixed.store 5).ff + (fixed.store (-7)).ff ∧
    ((fixed.store 5).operator_sub (fixed.store (-7))).ff = (fixed.store 5).ff - (fixed.store (-7)).ff ∧
    ((fixed.store 9223372036854775807).operator_add (fixed.store 1)).ff = -9223372036854775808 :=
  ⟨(C4_add_sub_on_storage (fixed.store 5) (fixed.store (-7))).2.2.1 (by decide),
   (C4_add_sub_on_storage (fixed.store 5) (fixed.store (-7))).2.2.2 (by decide),
   by decide⟩

/-- C5: construction from integers is a homomorphism for addition.  For all
integers `x`, `y` such that `x`, `y` and `x + y` have magnitude below `2^39`,
`fixed(x) + fixed(y) == fixed(x + y)`. -/
theorem C5_from_integer_add_hom (x y : Int)
    (hx : |x| < 2 ^ 39) (hy : |y| < 2 ^ 39) (hxy : |x + y| < 2 ^ 39) :
    ((fixed.from_signed x).operator_add (fixed.from_signed y)).operator_eq
      (fixed.from_signed (x + y)) = true := by
  rw [abs_lt] at hx hy hxy
  have e1 := @fixed.from_signed_ff_exact x ⟨by omega, by omega⟩
  have e2 := @fixed.from_signed_ff_exact y ⟨by omega, by omega⟩
  have e3 := @fixed.from_signed_ff_exact (x + y) ⟨by omega, by omega⟩
  simp only [fixed.operator_eq, decide_eq_true_eq, fixed.operator_add, fixed.store_ff, add64,
    wrap64_wrap64, e1, e2, e3]
  unfold wrap64
  omega

/-- Witness for C5: the example `fixed(3) + fixed(4) == fixed(7)`. -/
theorem C5_from_integer_add_hom_witness :
    ((fixed.from_signed 3).operator_add (fixed.from_signed 4)).operator_eq
      (fixed.from_signed (3 + 4)) = true :=
  C5_from_integer_add_hom 3 4 (by norm_num) (by norm_num) (by norm_num)

/-- C6: additive identity and inverse.  For every `a`, including the one with
storage `-2^63`, `a + fixed(0) == a` and `a + (-a) == fixed(0)`. -/
theorem C6_additive_identity_inverse (a : fixed) :
    (a.operator_add (fixed.from_signed 0)).operator_eq a = true ∧
    (a.operator_add a.operator_neg).operator_eq (fixed.from_signed 0) = true := by
  have hr := a.inRange
  unfold InInt64 at hr
  have h0 : (fixed.from_signed 0).ff = 0 := by decide
  constructor
  · simp only [fixed.operator_eq, decide_eq_true_eq, fixed.operator_add, fixed.store_ff, add64,
      h0, wrap64]
    omega
  · simp only [fixed.operator_eq, decide_eq_true_eq, fixed.operator_add, fixed.operator_neg,
      fixed.store_ff, add64, neg64, h0, wrap64]
    omega

/-! ## Division by zero (C7 - C9) -/

theorem fixed.from_signed_zero_ff : (fixed.from_signed 0).ff = 0 := by decide

theorem fixed.from_unsigned_zero_ff : (fixed.from_unsigned 0).ff = 0 := by decide

/-- With a divisor of storage zero, `operator /` takes the branch of the
"positive" constant, whatever the dividend. -/
theorem fixed.operator_div_with_zero_divisor (pos neg : Int) (a z : fixed) (hz : z.ff = 0) :
    fixed.operator_div_with pos neg a z = Except.ok (fixed.store pos) := by
  have hb : shr (strip_sign z.ff (strip_sign a.ff false).2).1 8 = 0 := by
    simp [hz, strip_sign, shr]
  have hm : mul64 a.ff z.ff = 0 := by simp [hz, mul64, wrap64]
  simp only [fixed.operator_div_with, hb, hm, ne_eq, not_true_eq_false, if_false, ge_iff_le,
    le_refl, if_true]

/-- The compound `operator /=` has the same zero-divisor behaviour. -/
theorem fixed.operator_div_assign_zero_divisor (a z : fixed) (hz : z.ff = 0) :
    fixed.operator_div_assign a z = Except.ok (fixed.store big_positive) := by
  have hb : shr (strip_sign z.ff (strip_sign a.ff false).2).1 8 = 0 := by
    simp [hz, strip_sign, shr]
  have hm : mul64 a.ff z.ff = 0 := by simp [hz, mul64, wrap64]
  simp only [fixed.operator_div_assign, hb, hm, ne_eq, not_true_eq_false, if_false, ge_iff_le,
    le_refl, if_true]

theorem big_positive_eq_zero : big_positive = 0 := by decide

theorem big_negative_eq_zero : big_negative = 0 := by decide

/-- C7 (evaluation of the code): for every `a`, in particular for `a >= 0`, the
storage of `a / fixed(0)` and of `a /= fixed(0)` is `0`, because the constant
`(!(uint64_t(0))) >> 2` is `1 >> 2 = 0`; it is not the maximum magnitude
`2^63 - 1` of the storage type. -/
theorem C7_division_by_zero_stores_zero (a : fixed) :
    a.operator_div (fixed.from_signed 0) = Except.ok (fixed.store 0) ∧
    a.operator_div_assign (fixed.from_signed 0) = Except.ok (fixed.store 0) ∧
    (fixed.store 0).ff = 0 ∧
    (fixed.store 0).ff ≠ 2 ^ 63 - 1 := by
  refine ⟨?_, ?_, by decide, by decide⟩
  · unfold fixed.operator_div
    rw [fixed.operator_div_with_zero_divisor _ _ _ _ fixed.from_signed_zero_ff,
      big_positive_eq_zero]
  · rw [fixed.operator_div_assign_zero_divisor _ _ fixed.from_signed_zero_ff,
      big_positive_eq_zero]

/-- C8 (counterexample): `fixed(-10) / fixed(0)` does not compare less than
`fixed(0)`; it is the very value returned by `fixed(10) / fixed(0)`. -/
theorem C8_negative_dividend_counterexample :
    (fixed.from_signed (-10)).ff < 0 ∧
    (fixed.from_signed (-10)).operator_div (fixed.from_signed 0)
      = (fixed.from_signed 10).operator_div (fixed.from_signed 0) ∧
    (fixed.from_signed (-10)).operator_div (fixed.from_signed 0)
      = Except.ok (fixed.store big_positive) ∧
    (fixed.store big_positive).operator_lt (fixed.from_signed 0) = false := by
  decide

/-- C8 (amended): for every `a`, of either sign, `a / fixed(0)` returns the
constant of the positive branch, whatever the two constants are: the tested
product `a.ff * 0` is `0`, never negative. -/
theorem C8_zero_divisor_takes_positive_branch (pos neg : Int) (a : fixed) :
    fixed.operator_div_with pos neg a (fixed.from_signed 0) = Except.ok (fixed.store pos) ∧
    a.operator_div (fixed.from_signed 0) = Except.ok (fixed.store big_positive) :=
  ⟨fixed.operator_div_with_zero_divisor pos neg a _ fixed.from_signed_zero_ff,
   fixed.operator_div_with_zero_divisor _ _ a _ fixed.from_signed_zero_ff⟩

theorem idiv64_ok {a b : Int} (h0 : b ≠ 0) (h1 : b ≠ -1) :
    idiv64 a b = Except.ok (Int.tdiv a b) := by
  unfold idiv64
  rw [if_neg h0, if_neg (fun h => h1 h.2)]

/-- The reduced divisor magnitude is never `-1`: it is non-negative, except for
the storage `-2^63`, whose negation wraps and which reduces to `-2^55`. -/
theorem reduced_divisor_ne_neg_one (b : fixed) (s : Bool) :
    shr (strip_sign b.ff s).1 8 ≠ -1 := by
  have hr := b.inRange
  unfold InInt64 at hr
  unfold strip_sign
  split_ifs <;> simp only [shr, neg64, wrap64] <;> omega

theorem fixed.operator_div_with_returns (pos neg : Int) (a b : fixed) :
    ∃ r, fixed.operator_div_with pos neg a b = Except.ok r := by
  unfold fixed.operator_div_with
  by_cases hb : shr (strip_sign b.ff (strip_sign a.ff false).2).1 8 = 0
  · simp only [hb, ne_eq, not_true_eq_false, if_false]
    split_ifs
    · exact ⟨_, rfl⟩
    · exact ⟨_, rfl⟩
  · simp only [ne_eq, hb, not_false_eq_true, if_true,
      idiv64_ok hb (reduced_divisor_ne_neg_one b _)]
    exact ⟨_, rfl⟩

theorem fixed.operator_div_assign_returns (a b : fixed) :
    ∃ r, fixed.operator_div_assign a b = Except.ok r := by
  unfold fixed.operator_div_assign
  by_cases hb : shr (strip_sign b.ff (strip_sign a.ff false).2).1 8 = 0
  · simp only [hb, ne_eq, not_true_eq_false, if_false]
    split_ifs
    · exact ⟨_, rfl⟩
    · exact ⟨_, rfl⟩
  · simp only [ne_eq, hb, not_false_eq_true, if_true,
      idiv64_ok hb (reduced_divisor_ne_neg_one b _)]
    exact ⟨_, rfl⟩

/-- C9 (evaluation of the code): in `fixed.hpp` the operators `fixed / fixed`
and `fixed /= fixed` return a value for every pair of operands, and so do
`a / x` and `a /= x` for a native integer `x == 0`; in the older header
`fixed.h` the same operators execute the native divide with a zero divisor, at
`fixed(1) / fixed(0)`, `fixed(1) /= fixed(0)` and `fixed(1) /= 0`. -/
theorem C9_division_faults_in_fixed_h :
    (∀ a b : fixed, ∃ r, a.operator_div b = Except.ok r) ∧
    (∀ a b : fixed, ∃ r, a.operator_div_assign b = Except.ok r) ∧
    (∀ a : fixed, ∃ r, a.operator_div_native 0 = Except.ok r) ∧
    (∀ a : fixed, ∃ r, a.operator_div_unsigned 0 = Except.ok r) ∧
    (∀ a : fixed, ∃ r, a.operator_div_uint64 0 = Except.ok r) ∧
    (∀ a : fixed, ∃ r, a.operator_div_assign_native 0 = Except.ok r) ∧
    (∀ a : fixed, ∃ r, a.operator_div_assign_unsigned 0 = Except.ok r) ∧
    (∀ a : fixed, ∃ r, a.operator_div_assign_uint64 0 = Except.ok r) ∧
    fixed_h.operator_div (fixed.from_signed 1) (fixed.from_signed 0)
      = Except.error Fault.div_by_zero ∧
    fixed_h.operator_div_assign (fixed.from_signed 1) (fixed.from_signed 0)
      = Except.error Fault.div_by_zero ∧
    fixed_h.operator_div_assign_native (fixed.from_signed 1) 0
      = Except.error Fault.div_by_zero := by
  refine ⟨?_, ?_, ?_, ?_, ?_, ?_, ?_, ?_, by decide, by decide, by decide⟩
  · exact fun a b => fixed.operator_div_with_returns _ _ a b
  · exact fun a b => fixed.operator_div_assign_returns a b
  · intro a
    simp only [fixed.operator_div_native, ne_eq, not_true_eq_false, if_false]
    exact fixed.operator_div_with_returns _ _ a _
  · intro a
    simp only [fixed.operator_div_unsigned, ne_eq, not_true_eq_false, if_false]
    exact fixed.operator_div_with_returns _ _ a _
  · intro a
    simp only [fixed.operator_div_uint64, ne_eq, not_true_eq_false, if_false]
    exact fixed.operator_div_with_returns _ _ a _
  · intro a
    simp only [fixed.operator_div_assign_native, ne_eq, not_true_eq_false, if_false]
    exact fixed.operator_div_assign_returns a _
  · intro a
    simp only [fixed.operator_div_assign_unsigned, ne_eq, not_true_eq_false, if_false]
    exact fixed.operator_div_assign_returns a _
  · intro a
    simp only [fixed.operator_div_assign_uint64, ne_eq, not_true_eq_false, if_false]
    exact fixed.operator_div_assign_returns a _

/-! ## Multiplication (C10) -/

theorem strip_sign_of_neg {a : Int} (s : Bool) (hr : InInt64 a) (h : a < 0)
    (hmin : a ≠ -2 ^ 63) : strip_sign a s = (-a, xor s true) := by
  unfold InInt64 at hr
  have : neg64 a = -a := by unfold neg64 wrap64; omega
  simp [strip_sign, h, this]

theorem strip_sign_of_nonneg {a : Int} (s : Bool) (h : 0 ≤ a) : strip_sign a s = (a, s) := by
  have : ¬ a < 0 := by omega
  simp [strip_sign, this]

/-- Core of the reduced multiply on magnitudes: when the product of the reduced
magnitudes lies in `[2^8, 2^63)`, the shifted product is positive and small. -/
theorem mul_core_pos (A B : Int)
    (hlo : 2 ^ 8 ≤ A / 2 ^ 8 * (B / 2 ^ 8)) (hhi : A / 2 ^ 8 * (B / 2 ^ 8) < 2 ^ 63) :
    0 < shr (mul64 (shr A 8) (shr B 8)) 8 ∧ shr (mul64 (shr A 8) (shr B 8)) 8 < 2 ^ 55 := by
  simp only [shr, mul64, wrap64]
  generalize A / 2 ^ 8 * (B / 2 ^ 8) = P at hlo hhi ⊢
  constructor <;> omega

theorem store_ff_pos {v : Int} (h0 : 0 < v) (h1 : v < 2 ^ 55) : 0 < (fixed.store v).ff := by
  simp only [fixed.store_ff, wrap64]
  omega

theorem store_neg64_ff_neg {v : Int} (h0 : 0 < v) (h1 : v < 2 ^ 55) :
    (fixed.store (neg64 v)).ff < 0 := by
  simp only [fixed.store_ff, neg64, wrap64]
  omega

/-- C10 (counterexample): the storages `255` (about `1.5e-5`) and
`1000000 * 2^24` are both nonzero, yet their product has storage `0`, whose sign
is not the product of the operand signs. -/
theorem C10_underflow_counterexample :
    (fixed.store 255).ff ≠ 0 ∧ (fixed.from_signed 1000000).ff ≠ 0 ∧
    ((fixed.store 255).operator_mul (fixed.from_signed 1000000)).ff = 0 ∧
    Int.sign ((fixed.store 255).operator_mul (fixed.from_signed 1000000)).ff
      ≠ Int.sign (fixed.store 255).ff * Int.sign (fixed.from_signed 1000000).ff := by
  decide

/-- C10 (amended): for every `a` and `b` with storages other than `-2^63` whose
reduced magnitudes have a product in `[2^8, 2^63)` (no underflow to zero and no
64-bit overflow), the sign of `(a * b).ff` is `sign(a.ff) * sign(b.ff)`, for all
four sign combinations. -/
theorem C10_multiplicative_sign (a b : fixed)
    (ha : a.ff ≠ -2 ^ 63) (hb : b.ff ≠ -2 ^ 63)
    (hlo : 2 ^ 8 ≤ |a.ff| / 2 ^ 8 * (|b.ff| / 2 ^ 8))
    (hhi : |a.ff| / 2 ^ 8 * (|b.ff| / 2 ^ 8) < 2 ^ 63) :
    Int.sign (a.operator_mul b).ff = Int.sign a.ff * Int.sign b.ff := by
  have ha0 : a.ff ≠ 0 := by
    intro h
    rw [h] at hlo
    norm_num at hlo
  have hb0 : b.ff ≠ 0 := by
    intro h
    rw [h] at hlo
    norm_num at hlo
  rcases lt_or_gt_of_ne ha0 with han | hap <;> rcases lt_or_gt_of_ne hb0 with hbn | hbp
  · rw [abs_of_neg han, abs_of_neg hbn] at hlo hhi
    obtain ⟨h0, h1⟩ := mul_core_pos _ _ hlo hhi
    rw [Int.sign_eq_neg_one_of_neg han, Int.sign_eq_neg_one_of_neg hbn]
    simp only [fixed.operator_mul, strip_sign_of_neg _ a.inRange han ha,
      strip_sign_of_neg _ b.inRange hbn hb]
    simpa using Int.sign_eq_one_of_pos (store_ff_pos h0 h1)
  · rw [abs_of_neg han, abs_of_pos hbp] at hlo hhi
    obtain ⟨h0, h1⟩ := mul_core_pos _ _ hlo hhi
    rw [Int.sign_eq_neg_one_of_neg han, Int.sign_eq_one_of_pos hbp]
    simp only [fixed.operator_mul, strip_sign_of_neg _ a.inRange han ha,
      strip_sign_of_nonneg _ (le_of_lt hbp)]
    simpa using Int.sign_eq_neg_one_of_neg (store_neg64_ff_neg h0 h1)
  · rw [abs_of_pos hap, abs_of_neg hbn] at hlo hhi
    obtain ⟨h0, h1⟩ := mul_core_pos _ _ hlo hhi
    rw [Int.sign_eq_one_of_pos hap, Int.sign_eq_neg_one_of_neg hbn]
    simp only [fixed.operator_mul, strip_sign_of_nonneg _ (le_of_lt hap),
      strip_sign_of_neg _ b.inRange hbn hb]
    simpa using Int.sign_eq_neg_one_of_neg (store_neg64_ff_neg h0 h1)
  · rw [abs_of_pos hap, abs_of_pos hbp] at hlo hhi
    obtain ⟨h0, h1⟩ := mul_core_pos _ _ hlo hhi
    rw [Int.sign_eq_one_of_pos hap, Int.sign_eq_one_of_pos hbp]
    simp only [fixed.operator_mul, strip_sign_of_nonneg _ (le_of_lt hap),
      strip_sign_of_nonneg _ (le_of_lt hbp)]
    simpa using Int.sign_eq_one_of_pos (store_ff_pos h0 h1)

/-- Witness for C10 (amended) at `fixed(-3) * fixed(4)`. -/
theorem C10_multiplicative_sign_witness :
    Int.sign ((fixed.from_signed (-3)).operator_mul (fixed.from_signed 4)).ff
      = Int.sign (fixed.from_signed (-3)).ff * Int.sign (fixed.from_signed 4).ff :=
  C10_multiplicative_sign (fixed.from_signed (-3)) (fixed.from_signed 4)
    (by decide) (by decide) (by decide) (by decide)

/-! ## The reduced multiply on magnitudes (C11, C12, C17, C20) -/

/-- Core of the reduced multiply: on non-negative magnitudes whose reduced
product is below `2^63`, the 64-bit product does not wrap. -/
theorem mul_core_value (A B : Int) (hA : 0 ≤ A) (hB : 0 ≤ B)
    (h : shr A 8 * shr B 8 < 2 ^ 63) :
    shr (mul64 (shr A 8) (shr B 8)) 8 = shr (shr A 8 * shr B 8) 8 ∧
    0 ≤ shr (shr A 8 * shr B 8) 8 ∧ shr (shr A 8 * shr B 8) 8 < 2 ^ 55 := by
  have h0 : 0 ≤ shr A 8 * shr B 8 :=
    mul_nonneg (Int.ediv_nonneg hA (by positivity)) (Int.ediv_nonneg hB (by positivity))
  simp only [mul64, wrap64]
  generalize shr A 8 * shr B 8 = P at h h0 ⊢
  simp only [shr]
  refine ⟨?_, ?_, ?_⟩ <;> omega

theorem store_ff_small {v : Int} (h0 : 0 ≤ v) (h1 : v < 2 ^ 55) : (fixed.store v).ff = v := by
  simp only [fixed.store_ff, wrap64]
  omega

theorem store_neg64_ff_small {v : Int} (h0 : 0 ≤ v) (h1 : v < 2 ^ 55) :
    (fixed.store (neg64 v)).ff = -v := by
  simp only [fixed.store_ff, neg64, wrap64]
  omega

/-- The storage of a product, in terms of the magnitudes of the operands, when
neither storage is `-2^63` and the reduced product stays below `2^63`. -/
theorem fixed.operator_mul_ff_scheme (a b : fixed)
    (ha : a.ff ≠ -2 ^ 63) (hb : b.ff ≠ -2 ^ 63)
    (h : shr |a.ff| 8 * shr |b.ff| 8 < 2 ^ 63) :
    (a.operator_mul b).ff
      = parity_sign a.ff b.ff * shr (shr |a.ff| 8 * shr |b.ff| 8) 8 := by
  rcases lt_or_le a.ff 0 with han | hap <;> rcases lt_or_le b.ff 0 with hbn | hbp
  · rw [abs_of_neg han, abs_of_neg hbn] at h ⊢
    obtain ⟨e, h0, h1⟩ := mul_core_value (-a.ff) (-b.ff) (by omega) (by omega) h
    simp only [fixed.operator_mul, strip_sign_of_neg _ a.inRange han ha,
      strip_sign_of_neg _ b.inRange hbn hb, e]
    simp [parity_sign, han, hbn, store_ff_small h0 h1]
  · rw [abs_of_neg han, abs_of_nonneg hbp] at h ⊢
    obtain ⟨e, h0, h1⟩ := mul_core_value (-a.ff) b.ff (by omega) hbp h
    simp only [fixed.operator_mul, strip_sign_of_neg _ a.inRange han ha,
      strip_sign_of_nonneg _ hbp, e]
    simp [parity_sign, han, not_lt.mpr hbp, store_neg64_ff_small h0 h1]
  · rw [abs_of_nonneg hap, abs_of_neg hbn] at h ⊢
    obtain ⟨e, h0, h1⟩ := mul_core_value a.ff (-b.ff) hap (by omega) h
    simp only [fixed.operator_mul, strip_sign_of_nonneg _ hap,
      strip_sign_of_neg _ b.inRange hbn hb, e]
    simp [parity_sign, not_lt.mpr hap, hbn, store_neg64_ff_small h0 h1]
  · rw [abs_of_nonneg hap, abs_of_nonneg hbp] at h ⊢
    obtain ⟨e, h0, h1⟩ := mul_core_value a.ff b.ff hap hbp h
    simp only [fixed.operator_mul, strip_sign_of_nonneg _ hap, strip_sign_of_nonneg _ hbp, e]
    simp [parity_sign, not_lt.mpr hap, not_lt.mpr hbp, store_ff_small h0 h1]

/-- A product with an operand of storage zero on the right has storage zero. -/
theorem fixed.operator_mul_zero_right (a z : fixed) (hz : z.ff = 0) :
    (a.operator_mul z).ff = 0 := by
  have hb : shr (strip_sign z.ff (strip_sign a.ff false).2).1 8 = 0 := by
    simp [hz, strip_sign, shr]
  simp only [fixed.operator_mul, hb, mul64, mul_zero, fixed.store_ff]
  split_ifs <;> decide

/-- A product with an operand of storage zero on the left has storage zero. -/
theorem fixed.operator_mul_zero_left (a z : fixed) (hz : z.ff = 0) :
    (z.operator_mul a).ff = 0 := by
  have hb : shr (strip_sign z.ff false).1 8 = 0 := by
    simp [hz, strip_sign, shr]
  simp only [fixed.operator_mul, hb, mul64, zero_mul, fixed.store_ff]
  split_ifs <;> decide

theorem parity_sign_mul_abs (x y u v : Int) (hu : u < 0 ↔ x < 0) (hv : v < 0 ↔ y < 0) :
    parity_sign u v * (|x| * |y|) = x * y := by
  unfold parity_sign
  rcases lt_or_le x 0 with hx | hx <;> rcases lt_or_le y 0 with hy | hy
  · rw [abs_of_neg hx, abs_of_neg hy]
    simp [hu, hv, hx, hy]
  · rw [abs_of_neg hx, abs_of_nonneg hy]
    simp [hu, hv, hx, not_lt.mpr hy]
  · rw [abs_of_nonneg hx, abs_of_neg hy]
    simp [hu, hv, hy, not_lt.mpr hx]
  · rw [abs_of_nonneg hx, abs_of_nonneg hy]
    simp [hu, hv, not_lt.mpr hx, not_lt.mpr hy]

/-- The reduced magnitude of the storage `x * 2^24` of an integer. -/
theorem shr_abs_scaled (x : Int) : shr |x * 2 ^ 24| 8 = |x| * 2 ^ 16 := by
  have h : |x * 2 ^ 24| = |x| * 2 ^ 24 := by
    rw [abs_mul, abs_of_pos (by positivity : (0 : Int) < 2 ^ 24)]
  rw [h]
  unfold shr
  omega

/-- The product of the storages of two integers with `|x * y| < 2^31` is the
storage of `x * y`. -/
theorem fixed.operator_mul_from_signed (x y : Int)
    (hx : |x| < 2 ^ 39) (hy : |y| < 2 ^ 39) (hxy : |x * y| < 2 ^ 31) :
    ((fixed.from_signed x).operator_mul (fixed.from_signed y)).ff = x * y * 2 ^ 24 := by
  have hx2 := abs_lt.mp hx
  have hy2 := abs_lt.mp hy
  have ex := @fixed.from_signed_ff_exact x ⟨by omega, by omega⟩
  have ey := @fixed.from_signed_ff_exact y ⟨by omega, by omega⟩
  have hP : shr |x * 2 ^ 24| 8 * shr |y * 2 ^ 24| 8 = |x * y| * 2 ^ 32 := by
    rw [shr_abs_scaled, shr_abs_scaled, abs_mul]
    ring
  have hlt : shr |x * 2 ^ 24| 8 * shr |y * 2 ^ 24| 8 < 2 ^ 63 := by
    rw [hP]
    omega
  have hs := fixed.operator_mul_ff_scheme (fixed.from_signed x) (fixed.from_signed y)
    (by rw [ex]; omega) (by rw [ey]; omega) (by rw [ex, ey]; exact hlt)
  rw [hs, ex, ey, hP]
  have hshr : shr (|x * y| * 2 ^ 32) 8 = |x * y| * 2 ^ 24 := by
    unfold shr
    omega
  rw [hshr, abs_mul, ← mul_assoc,
    parity_sign_mul_abs x y (x * 2 ^ 24) (y * 2 ^ 24) (by omega) (by omega)]

/-- C11 (counterexample): `x = 65536`, `y = 32768` and `x * y = 2^31` all have
magnitude below `2^39`, yet the storage of `fixed(x) * fixed(y)` is `-2^55` while
that of `fixed(x * y)` is `2^55`: the reduced product `2^63` wraps. -/
theorem C11_overflow_counterexample :
    |(65536 : Int)| < 2 ^ 39 ∧ |(32768 : Int)| < 2 ^ 39 ∧ |(65536 * 32768 : Int)| < 2 ^ 39 ∧
    ((fixed.from_signed 65536).operator_mul (fixed.from_signed 32768)).ff = -2 ^ 55 ∧
    (fixed.from_signed (65536 * 32768)).ff = 2 ^ 55 ∧
    ¬ |((fixed.from_signed 65536).operator_mul (fixed.from_signed 32768)).ff
        - (fixed.from_signed (65536 * 32768)).ff| ≤ 2 ^ 8 := by
  decide

/-- C11 (amended): for all integers `x`, `y` of magnitude below `2^39` with
`|x * y| < 2^31`, the storage of `fixed(x) * fixed(y)` differs from the storage
of `fixed(x * y)` by at most `2^8`; the two are in fact equal. -/
theorem C11_integer_product_bound (x y : Int)
    (hx : |x| < 2 ^ 39) (hy : |y| < 2 ^ 39) (hxy : |x * y| < 2 ^ 31) :
    |((fixed.from_signed x).operator_mul (fixed.from_signed y)).ff
        - (fixed.from_signed (x * y)).ff| ≤ 2 ^ 8 ∧
    ((fixed.from_signed x).operator_mul (fixed.from_signed y)).ff
        = (fixed.from_signed (x * y)).ff := by
  have hxy2 := abs_lt.mp hxy
  have exy := @fixed.from_signed_ff_exact (x * y) ⟨by omega, by omega⟩
  have e := fixed.operator_mul_from_signed x y hx hy hxy
  rw [e, exy]
  simp

/-- Witness for C11 (amended) at `x = -46340`, `y = 46340` (`|x * y|` just below
`2^31`). -/
theorem C11_integer_product_bound_witness :
    |((fixed.from_signed (-46340)).operator_mul (fixed.from_signed 46340)).ff
        - (fixed.from_signed (-46340 * 46340)).ff| ≤ 2 ^ 8 ∧
    ((fixed.from_signed (-46340)).operator_mul (fixed.from_signed 46340)).ff
        = (fixed.from_signed (-46340 * 46340)).ff :=
  C11_integer_product_bound (-46340) 46340 (by decide) (by decide) (by decide)

/-- C12 (counterexample): for `a` with storage `2^24 + 1` and `x = 1`, the direct
operator `a * int16_t(1)` keeps the storage `2^24 + 1`, while `a * fixed(1)`
drops the low 8 bits and stores `2^24`. -/
theorem C12_low_bits_counterexample :
    ((fixed.store 16777217).operator_mul_native 1).ff = 16777217 ∧
    ((fixed.store 16777217).operator_mul (fixed.from_signed 1)).ff = 16777216 ∧
    ((fixed.store 16777217).operator_mul_native 1).ff
      ≠ ((fixed.store 16777217).operator_mul (fixed.from_signed 1)).ff := by
  decide

/-- C12 (amended): for every `a` whose storage is a multiple of `2^8` and every
16-bit signed `x` with `|a.ff * x| < 2^55`, the storage of `a * x` (the direct
operator taking `int16_t`) equals the storage of `a * fixed(x)`; both are
`a.ff * x`. -/
theorem C12_mixed_multiply_agrees (a : fixed) (x : Int)
    (hx : -2 ^ 15 ≤ x ∧ x < 2 ^ 15) (hm : a.ff % 2 ^ 8 = 0) (hp : |a.ff * x| < 2 ^ 55) :
    (a.operator_mul_native x).ff = (a.operator_mul (fixed.from_signed x)).ff ∧
    (a.operator_mul_native x).ff = a.ff * x := by
  have hp2 := abs_lt.mp hp
  have hdirect : (a.operator_mul_native x).ff = a.ff * x := by
    simp only [fixed.operator_mul_native, fixed.store_ff, mul64, wrap64_wrap64]
    exact wrap64_eq_self ⟨by omega, by omega⟩
  refine ⟨?_, hdirect⟩
  rw [hdirect]
  have ex := @fixed.from_signed_ff_exact x ⟨by omega, by omega⟩
  by_cases hx0 : x = 0
  · rw [fixed.operator_mul_zero_right a _ (by rw [ex, hx0]; norm_num), hx0, mul_zero]
  · have hx1 : 1 ≤ |x| := Int.one_le_abs hx0
    have hale : |a.ff| ≤ |a.ff * x| := by
      rw [abs_mul]
      exact le_mul_of_one_le_right (abs_nonneg _) hx1
    have hsmall : |a.ff| < 2 ^ 55 := lt_of_le_of_lt hale hp
    have ha : a.ff ≠ -2 ^ 63 := by
      intro h
      rw [h] at hsmall
      norm_num at hsmall
    obtain ⟨q, hq1, hq2⟩ : ∃ q, shr |a.ff| 8 = q ∧ |a.ff| = q * 2 ^ 8 := by
      refine ⟨shr |a.ff| 8, rfl, ?_⟩
      unfold shr
      rcases abs_cases a.ff with ⟨h1, _⟩ | ⟨h1, _⟩ <;> rw [h1] <;> omega
    have hT : q * |x| * 2 ^ 8 = |a.ff * x| := by
      rw [abs_mul, hq2]
      ring
    have hP : shr |a.ff| 8 * shr |x * 2 ^ 24| 8 = q * |x| * 2 ^ 16 := by
      rw [shr_abs_scaled, hq1]
      ring
    have hlt : shr |a.ff| 8 * shr |x * 2 ^ 24| 8 < 2 ^ 63 := by
      rw [hP]
      omega
    have hs := fixed.operator_mul_ff_scheme a (fixed.from_signed x) ha
      (by rw [ex]; omega) (by rw [ex]; exact hlt)
    rw [hs, ex, hP]
    have hshr : shr (q * |x| * 2 ^ 16) 8 = |a.ff| * |x| := by
      rw [hq2]
      unfold shr
      have : q * 2 ^ 8 * |x| = q * |x| * 2 ^ 8 := by ring
      rw [this]
      omega
    rw [hshr, parity_sign_mul_abs a.ff x a.ff (x * 2 ^ 24) Iff.rfl (by omega)]

/-- Witness for C12 (amended) at `a = fixed(-3)` and `x = 32767`. -/
theorem C12_mixed_multiply_agrees_witness :
    ((fixed.from_signed (-3)).operator_mul_native 32767).ff
      = ((fixed.from_signed (-3)).operator_mul (fixed.from_signed 32767)).ff ∧
    ((fixed.from_signed (-3)).operator_mul_native 32767).ff
      = (fixed.from_signed (-3)).ff * 32767 :=
  C12_mixed_multiply_agrees (fixed.from_signed (-3)) 32767 (by decide) (by decide) (by decide)

/-- C17: multiplication by zero is exactly zero.  For every `a`, of either sign
and including storage `-2^63`, `a * fixed(0) == fixed(0)` and
`fixed(0) * a == fixed(0)`. -/
theorem C17_multiplication_by_zero (a : fixed) :
    (a.operator_mul (fixed.from_signed 0)).operator_eq (fixed.from_signed 0) = true ∧
    ((fixed.from_signed 0).operator_mul a).operator_eq (fixed.from_signed 0) = true := by
  simp only [fixed.operator_eq, decide_eq_true_eq,
    fixed.operator_mul_zero_right a _ fixed.from_signed_zero_ff,
    fixed.operator_mul_zero_left a _ fixed.from_signed_zero_ff, fixed.from_signed_zero_ff,
    and_self]

/-- C20: multiplication follows the documented shift scheme.  For every `a` and
`b` with storages other than `-2^63` and `(|a.ff| >> 8) * (|b.ff| >> 8) < 2^63`,
the storage of `a * b` is `s * (((|a.ff| >> 8) * (|b.ff| >> 8)) >> 8)`, with
`s = -1` when exactly one storage is negative and `s = +1` otherwise. -/
theorem C20_multiplication_shift_scheme (a b : fixed)
    (ha : a.ff ≠ -2 ^ 63) (hb : b.ff ≠ -2 ^ 63)
    (h : (|a.ff| / 2 ^ 8) * (|b.ff| / 2 ^ 8) < 2 ^ 63) :
    (a.operator_mul b).ff
      = (if (a.ff < 0 ∧ ¬ b.ff < 0) ∨ (¬ a.ff < 0 ∧ b.ff < 0) then -1 else 1)
        * (((|a.ff| / 2 ^ 8) * (|b.ff| / 2 ^ 8)) / 2 ^ 8) := by
  have hs := fixed.operator_mul_ff_scheme a b ha hb h
  simp only [shr] at hs
  rw [hs]
  congr 1
  unfold parity_sign
  by_cases h1 : a.ff < 0 <;> by_cases h2 : b.ff < 0 <;> simp [h1, h2]

/-- Witness for C20 at storages `-3 * 2^24 - 77` and `5 * 2^23 + 1`. -/
theorem C20_multiplication_shift_scheme_witness :
    ((fixed.store (-50331725)).operator_mul (fixed.store 41943041)).ff
      = (if ((fixed.store (-50331725)).ff < 0 ∧ ¬ (fixed.store 41943041).ff < 0)
            ∨ (¬ (fixed.store (-50331725)).ff < 0 ∧ (fixed.store 41943041).ff < 0)
          then -1 else 1)
        * (((|(fixed.store (-50331725)).ff| / 2 ^ 8) * (|(fixed.store 41943041).ff| / 2 ^ 8))
            / 2 ^ 8) :=
  C20_multiplication_shift_scheme (fixed.store (-50331725)) (fixed.store 41943041)
    (by decide) (by decide) (by decide)

/-! ## Mixed-type operators (C13, C14, C19) -/

/-- The body shared by `fixed + intN` and `fixed += intN` gives the storage of
`a + fixed(x)`. -/
theorem fixed.operator_add_native_ff (a : fixed) (x : Int) :
    (a.operator_add_native x).ff = (a.operator_add (fixed.from_signed x)).ff := by
  have hr := a.inRange
  unfold InInt64 at hr
  simp only [fixed.operator_add_native, fixed.operator_add, fixed.from_signed]
  split_ifs <;> simp only [fixed.store_ff, add64, sub64, neg64, shl64, wrap64] <;> omega

/-- The body shared by `fixed - intN` and `fixed -= intN` gives the storage of
`a - fixed(x)`. -/
theorem fixed.operator_sub_native_ff (a : fixed) (x : Int) :
    (a.operator_sub_native x).ff = (a.operator_sub (fixed.from_signed x)).ff := by
  have hr := a.inRange
  unfold InInt64 at hr
  simp only [fixed.operator_sub_native, fixed.operator_sub, fixed.from_signed]
  split_ifs <;> simp only [fixed.store_ff, add64, sub64, neg64, shl64, wrap64] <;> omega

/-- C13 (evaluation of the code): for the signed operand types `a + x` and
`a - x` have the storage of `a + fixed(x)` and `a - fixed(x)`; for the unsigned
operand types the source line `z.ff = ff + int64_t(x) << 24` shifts the whole
sum, so `fixed(1) + uint16_t(1)` has storage `2^48 + 2^24 = 281474993487872` and
not the storage `2^25 = 33554432` of `fixed(1) + fixed(1)`, and likewise for
`-` (`2^48 - 2^24 = 281474959933440` instead of `0`). -/
theorem C13_unsigned_add_sub_shift_the_sum :
    (∀ (a : fixed) (x : Int),
      (a.operator_add_native x).ff = (a.operator_add (fixed.from_signed x)).ff) ∧
    (∀ (a : fixed) (x : Int),
      (a.operator_sub_native x).ff = (a.operator_sub (fixed.from_signed x)).ff) ∧
    ((fixed.from_signed 1).operator_add_unsigned 1).ff = 281474993487872 ∧
    ((fixed.from_signed 1).operator_add (fixed.from_unsigned 1)).ff = 33554432 ∧
    ((fixed.from_signed 1).operator_sub_unsigned 1).ff = 281474959933440 ∧
    ((fixed.from_signed 1).operator_sub (fixed.from_unsigned 1)).ff = 0 :=
  ⟨fixed.operator_add_native_ff, fixed.operator_sub_native_ff,
   by set_option maxRecDepth 4000 in decide, by decide,
   by set_option maxRecDepth 4000 in decide, by decide⟩

/-- C14 (evaluation of the code): `fixed(10) / int16_t(2)` returns `fixed(10)`
itself, because the nonzero branch ends in `return (*this)` after computing the
quotient into `z`; `fixed(10) /= int16_t(2)` leaves `fixed(5)`, the truncating
quotient of the storage.  The same holds for the unsigned operand types. -/
theorem C14_native_division_returns_dividend :
    (fixed.from_signed 10).operator_div_native 2 = Except.ok (fixed.from_signed 10) ∧
    (fixed.from_signed 10).operator_div_unsigned 2 = Except.ok (fixed.from_signed 10) ∧
    (fixed.from_signed 10).operator_div_uint64 2 = Except.ok (fixed.from_signed 10) ∧
    (fixed.from_signed 10).operator_div_assign_native 2 = Except.ok (fixed.from_signed 5) ∧
    (fixed.from_signed 10).operator_div_assign_unsigned 2 = Except.ok (fixed.from_signed 5) ∧
    (fixed.from_signed 10).operator_div_assign_uint64 2 = Except.ok (fixed.from_signed 5) ∧
    (fixed.from_signed 5).ff = Int.tdiv (fixed.from_signed 10).ff 2 ∧
    (fixed.from_signed 10).ff ≠ Int.tdiv (fixed.from_signed 10).ff 2 := by
  decide

/-- C19: compound mixed-type addition and subtraction agree with the same-type
path for every input.  After `a += x` the storage is that of `a + fixed(x)` and
after `a -= x` it is that of `a - fixed(x)`, for the signed and for the unsigned
operand types, wrap-around included. -/
theorem C19_compound_mixed_add_sub (a : fixed) (x : Int) :
    (a.operator_add_assign_native x).ff = (a.operator_add (fixed.from_signed x)).ff ∧
    (a.operator_sub_assign_native x).ff = (a.operator_sub (fixed.from_signed x)).ff ∧
    (a.operator_add_assign_unsigned x).ff = (a.operator_add (fixed.from_unsigned x)).ff ∧
    (a.operator_sub_assign_unsigned x).ff = (a.operator_sub (fixed.from_unsigned x)).ff := by
  have hr := a.inRange
  unfold InInt64 at hr
  refine ⟨fixed.operator_add_native_ff a x, fixed.operator_sub_native_ff a x, ?_, ?_⟩
  · simp only [fixed.operator_add_assign_unsigned, fixed.operator_add, fixed.from_unsigned,
      fixed.store_ff, add64, shl64, wrap64]
    omega
  · simp only [fixed.operator_sub_assign_unsigned, fixed.operator_sub, fixed.from_unsigned,
      fixed.store_ff, sub64, shl64, wrap64]
    omega

/-! ## Comparison (C15, C16) -/

/-- C15: comparison consistency.  For every `a` and `b` exactly one of `a < b`,
`a == b`, `a > b` holds; `a != b` is the negation of `a == b`; `a <= b` holds iff
`a < b` or `a == b`; `a >= b` holds iff `a > b` or `a == b`; each is the signed
comparison of the storages. -/
theorem C15_comparison_consistency (a b : fixed) :
    ((a.operator_lt b = true ∧ a.operator_eq b = false ∧ a.operator_gt b = false) ∨
     (a.operator_lt b = false ∧ a.operator_eq b = true ∧ a.operator_gt b = false) ∨
     (a.operator_lt b = false ∧ a.operator_eq b = false ∧ a.operator_gt b = true)) ∧
    a.operator_ne b = !(a.operator_eq b) ∧
    a.operator_le b = (a.operator_lt b || a.operator_eq b) ∧
    a.operator_ge b = (a.operator_gt b || a.operator_eq b) ∧
    (a.operator_lt b = true ↔ a.ff < b.ff) ∧
    (a.operator_eq b = true ↔ a.ff = b.ff) ∧
    (a.operator_gt b = true ↔ b.ff < a.ff) ∧
    (a.operator_le b = true ↔ a.ff ≤ b.ff) ∧
    (a.operator_ge b = true ↔ b.ff ≤ a.ff) := by
  simp only [fixed.operator_lt, fixed.operator_eq, fixed.operator_gt, fixed.operator_ne,
    fixed.operator_le, fixed.operator_ge]
  rcases lt_trichotomy a.ff b.ff with h | h | h
  · have h1 : ¬ a.ff = b.ff := by omega
    have h2 : ¬ a.ff > b.ff := by omega
    have h3 : a.ff ≤ b.ff := by omega
    have h4 : ¬ a.ff ≥ b.ff := by omega
    simp [h, h1, h2, h3, h4]
  · simp [h]
  · have h1 : ¬ a.ff = b.ff := by omega
    have h2 : ¬ a.ff < b.ff := by omega
    have h3 : ¬ a.ff ≤ b.ff := by omega
    have h4 : a.ff ≥ b.ff := by omega
    have h5 : a.ff > b.ff := h
    simp [h, h1, h2, h3, h4, h5]

/-- C16: ordering matches the ordering of the represented integers.  For all
integers `x`, `y` with `-2^39 ≤ x, y < 2^39`, `fixed(x) < fixed(y)` holds iff
`x < y`, and `fixed(x) == fixed(y)` holds iff `x = y`. -/
theorem C16_order_matches_integers (x y : Int)
    (hx : -2 ^ 39 ≤ x ∧ x < 2 ^ 39) (hy : -2 ^ 39 ≤ y ∧ y < 2 ^ 39) :
    ((fixed.from_signed x).operator_lt (fixed.from_signed y) = true ↔ x < y) ∧
    ((fixed.from_signed x).operator_eq (fixed.from_signed y) = true ↔ x = y) := by
  have ex := fixed.from_signed_ff_exact hx
  have ey := fixed.from_signed_ff_exact hy
  simp only [fixed.operator_lt, fixed.operator_eq, decide_eq_true_eq, ex, ey]
  constructor <;> constructor <;> intro h <;> omega

/-- Witness for C16 at the two ends of the range, `x = -2^39` and
`y = 2^39 - 1`. -/
theorem C16_order_matches_integers_witness :
    ((fixed.from_signed (-549755813888)).operator_lt (fixed.from_signed 549755813887) = true
      ↔ (-549755813888 : Int) < 549755813887) ∧
    ((fixed.from_signed (-549755813888)).operator_eq (fixed.from_signed 549755813887) = true
      ↔ (-549755813888 : Int) = 549755813887) :=
  C16_order_matches_integers (-549755813888) 549755813887 (by decide) (by decide)

/-! ## Generic conversion from and to floating point (C18) -/

/-- Truncation toward zero moves a value by less than one and never increases
its magnitude. -/
theorem trunc_toward_zero_spec (r : ℚ) :
    |((trunc_toward_zero r : Int) : ℚ) - r| < 1 ∧ |((trunc_toward_zero r : Int) : ℚ)| ≤ |r| := by
  unfold trunc_toward_zero
  split_ifs with h
  · have h1 := Int.floor_le r
    have h2 := Int.lt_floor_add_one r
    have h3 : (0 : ℚ) ≤ ((⌊r⌋ : Int) : ℚ) := by exact_mod_cast Int.floor_nonneg.mpr h
    rw [abs_lt, abs_of_nonneg h3, abs_of_nonneg h]
    exact ⟨⟨by linarith, by linarith⟩, h1⟩
  · have hneg : r < 0 := not_le.mp h
    have h1 := Int.le_ceil r
    have h2 := Int.ceil_lt_add_one r
    have h3 : ((⌈r⌉ : Int) : ℚ) ≤ 0 := by
      have : ⌈r⌉ ≤ 0 := Int.ceil_le.mpr (by simpa using hneg.le)
      exact_mod_cast this
    rw [abs_lt, abs_of_nonpos h3, abs_of_neg hneg]
    exact ⟨⟨by linarith, by linarith⟩, by linarith⟩

theorem trunc_toward_zero_intCast (n : Int) : trunc_toward_zero (n : ℚ) = n := by
  unfold trunc_toward_zero
  split_ifs
  · exact Int.floor_intCast n
  · exact Int.ceil_intCast n

/-- Rounding to an integer leaves an integer unchanged. -/
theorem round_half_even_intCast (n : Int) : round_half_even (n : ℚ) = n := by
  simp [round_half_even]

/-- A value half way between two integers is rounded to the even one. -/
theorem round_half_even_tie_even (f : Int) (hf : f % 2 = 0) :
    round_half_even ((f : ℚ) + 1 / 2) = f := by
  have hfl : ⌊(f : ℚ) + 1 / 2⌋ = f := by
    rw [Int.floor_eq_iff]
    constructor <;> norm_num
  simp only [round_half_even, hfl]
  norm_num [hf]

/-- The binary exponent of a positive value lying in a known binade. -/
theorem int_log_two_eq {q : ℚ} {L : Int} (h0 : 0 < q) (h1 : (2 : ℚ) ^ L ≤ q)
    (h2 : q < (2 : ℚ) ^ (L + 1)) : Int.log 2 q = L := by
  have a : L ≤ Int.log 2 q := by
    have := (Int.zpow_le_iff_le_log (b := 2) (by norm_num) (x := L) h0).mp (by exact_mod_cast h1)
    exact this
  have b : Int.log 2 q < L + 1 := by
    have := (Int.lt_zpow_iff_log_lt (b := 2) (by norm_num) (x := L + 1) h0).mp (by exact_mod_cast h2)
    exact this
  omega

/-- Rounding to `double` leaves every `double` unchanged: a value `m * 2^k`
with `|m| < 2^53` is representable. -/
theorem round_double_of_double (m k : Int) (hm : |m| < 2 ^ 53) :
    round_double ((m : ℚ) * (2 : ℚ) ^ k) = (m : ℚ) * (2 : ℚ) ^ k := by
  by_cases hm0 : m = 0
  · simp [round_double, hm0]
  have h2 : (0 : ℚ) < 2 := by norm_num
  have hk : (0 : ℚ) < (2 : ℚ) ^ k := zpow_pos h2 k
  have hq : (m : ℚ) * (2 : ℚ) ^ k ≠ 0 :=
    mul_ne_zero (by exact_mod_cast hm0) (ne_of_gt hk)
  have hpos : 0 < |(m : ℚ) * (2 : ℚ) ^ k| := abs_pos.mpr hq
  have hlt : |(m : ℚ) * (2 : ℚ) ^ k| < ((2 : ℕ) : ℚ) ^ (53 + k) := by
    rw [abs_mul, abs_of_pos hk, zpow_add₀ (by norm_num : ((2 : ℕ) : ℚ) ≠ 0)]
    have : |(m : ℚ)| < ((2 : ℕ) : ℚ) ^ (53 : Int) := by
      have h' : ((|m| : Int) : ℚ) < ((2 ^ 53 : Int) : ℚ) := by exact_mod_cast hm
      rw [Int.cast_abs] at h'
      norm_num at h' ⊢
      exact h'
    have e2 : ((2 : ℕ) : ℚ) ^ k = (2 : ℚ) ^ k := by norm_num
    rw [e2]
    exact mul_lt_mul_of_pos_right this hk
  have hL : Int.log 2 |(m : ℚ) * (2 : ℚ) ^ k| < 53 + k :=
    (Int.lt_zpow_iff_log_lt (by norm_num) hpos).mp hlt
  unfold round_double
  rw [if_neg hq]
  simp only
  generalize Int.log 2 |(m : ℚ) * (2 : ℚ) ^ k| = L at hL
  obtain ⟨j, hj⟩ : ∃ j : ℕ, k = (L - 52) + j := ⟨(k - (L - 52)).toNat, by omega⟩
  have hdiv : (m : ℚ) * (2 : ℚ) ^ k / (2 : ℚ) ^ (L - 52) = ((m * 2 ^ j : Int) : ℚ) := by
    rw [hj, zpow_add₀ (by norm_num : (2 : ℚ) ≠ 0)]
    have hne : (2 : ℚ) ^ (L - 52) ≠ 0 := ne_of_gt (zpow_pos h2 _)
    field_simp
    ring
  rw [hdiv, round_half_even_intCast, hj, zpow_add₀ (by norm_num : (2 : ℚ) ≠ 0)]
  push_cast
  rw [zpow_natCast]
  ring

/-- Scaling a double by a power of two gives a double. -/
theorem round_double_scaled (m k j : Int) (hm : |m| < 2 ^ 53) :
    round_double ((m : ℚ) * (2 : ℚ) ^ k * (2 : ℚ) ^ j) = (m : ℚ) * (2 : ℚ) ^ k * (2 : ℚ) ^ j := by
  rw [mul_assoc, ← zpow_add₀ (by norm_num : (2 : ℚ) ≠ 0)]
  exact round_double_of_double m (k + j) hm

/-- An integer of magnitude below `2^53` is a `double`. -/
theorem round_double_intCast (n : Int) (hn : |n| < 2 ^ 53) :
    round_double (n : ℚ) = (n : ℚ) := by
  have h := round_double_of_double n 0 hn
  simpa using h

/-- The truncation of a double is an integer that is a double. -/
theorem trunc_of_double (m k : Int) (hm : |m| < 2 ^ 53) :
    ∃ m1 k1 : Int, |m1| < 2 ^ 53 ∧
      ((trunc_toward_zero ((m : ℚ) * (2 : ℚ) ^ k) : Int) : ℚ) = (m1 : ℚ) * (2 : ℚ) ^ k1 := by
  rcases le_or_lt 0 k with hk | hk
  · obtain ⟨j, hj⟩ : ∃ j : ℕ, k = j := ⟨k.toNat, by omega⟩
    refine ⟨m, k, hm, ?_⟩
    have e : (m : ℚ) * (2 : ℚ) ^ k = ((m * 2 ^ j : Int) : ℚ) := by
      rw [hj, zpow_natCast]
      push_cast
      ring
    rw [e, trunc_toward_zero_intCast, ← e]
  · refine ⟨trunc_toward_zero ((m : ℚ) * (2 : ℚ) ^ k), 0, ?_, by simp⟩
    have hs := (trunc_toward_zero_spec ((m : ℚ) * (2 : ℚ) ^ k)).2
    have hk1 : (2 : ℚ) ^ k ≤ 1 := zpow_le_one_of_nonpos₀ (by norm_num) (le_of_lt hk)
    have hk0 : (0 : ℚ) < (2 : ℚ) ^ k := zpow_pos (by norm_num) k
    have hle : |(m : ℚ) * (2 : ℚ) ^ k| ≤ |(m : ℚ)| := by
      rw [abs_mul, abs_of_pos hk0]
      exact mul_le_of_le_one_right (abs_nonneg _) hk1
    have hmq : |(m : ℚ)| < 2 ^ 53 := by
      have h' : ((|m| : Int) : ℚ) < ((2 ^ 53 : Int) : ℚ) := by exact_mod_cast hm
      rw [Int.cast_abs] at h'
      norm_num at h' ⊢
      exact h'
    have hfin := lt_of_le_of_lt (le_trans hs hle) hmq
    rw [← Int.cast_abs] at hfin
    exact_mod_cast hfin

/-- In range and on a double, the generic constructor stores the truncation of
the scaled value: neither the multiply nor the conversion wraps or rounds. -/
theorem fixed.from_double_ff (m k : Int) (hm : |m| < 2 ^ 53)
    (hx : |(m : ℚ) * (2 : ℚ) ^ k| < 2 ^ 39) :
    (fixed.from_double ((m : ℚ) * (2 : ℚ) ^ k)).ff
      = trunc_toward_zero ((m : ℚ) * (2 : ℚ) ^ k * 2 ^ 24) := by
  have hr : |(m : ℚ) * (2 : ℚ) ^ k * 2 ^ 24| < 2 ^ 63 := by
    rw [abs_mul, abs_of_pos (by positivity : (0 : ℚ) < 2 ^ 24)]
    calc |(m : ℚ) * (2 : ℚ) ^ k| * 2 ^ 24 < 2 ^ 39 * 2 ^ 24 :=
          mul_lt_mul_of_pos_right hx (by positivity)
      _ = 2 ^ 63 := by norm_num
  have ht := lt_of_le_of_lt (trunc_toward_zero_spec ((m : ℚ) * (2 : ℚ) ^ k * 2 ^ 24)).2 hr
  rw [abs_lt] at ht
  have h1 : -2 ^ 63 < trunc_toward_zero ((m : ℚ) * (2 : ℚ) ^ k * 2 ^ 24) := by
    exact_mod_cast ht.1
  have h2 : trunc_toward_zero ((m : ℚ) * (2 : ℚ) ^ k * 2 ^ 24) < 2 ^ 63 := by
    exact_mod_cast ht.2
  have hround : round_double (round_double ((m : ℚ) * (2 : ℚ) ^ k) * 2 ^ 24)
      = (m : ℚ) * (2 : ℚ) ^ k * 2 ^ 24 := by
    have e24 : ((2 : ℚ) ^ 24) = (2 : ℚ) ^ (24 : Int) := by norm_num
    rw [round_double_of_double m k hm, e24]
    exact round_double_scaled m k 24 hm
  unfold fixed.from_double
  rw [hround, fixed.store_ff]
  exact wrap64_eq_self ⟨le_of_lt h1, h2⟩

/-- Converting the storage left by the constructor back to `double` is exact. -/
theorem fixed.operator_double_from_double (m k : Int) (hm : |m| < 2 ^ 53)
    (hx : |(m : ℚ) * (2 : ℚ) ^ k| < 2 ^ 39) :
    (fixed.from_double ((m : ℚ) * (2 : ℚ) ^ k)).operator_double
      = ((fixed.from_double ((m : ℚ) * (2 : ℚ) ^ k)).ff : ℚ) / 2 ^ 24 := by
  have e24 : ((2 : ℚ) ^ 24) = (2 : ℚ) ^ (24 : Int) := by norm_num
  have hff := fixed.from_double_ff m k hm hx
  obtain ⟨m1, k1, hm1, hv⟩ := trunc_of_double m (k + 24) hm
  rw [zpow_add₀ (by norm_num : (2 : ℚ) ≠ 0), ← mul_assoc, ← e24, ← hff] at hv
  unfold fixed.operator_double
  rw [hv, round_double_of_double m1 k1 hm1]
  have e : (m1 : ℚ) * (2 : ℚ) ^ k1 / 2 ^ 24 = (m1 : ℚ) * (2 : ℚ) ^ k1 * (2 : ℚ) ^ (-24 : Int) := by
    rw [div_eq_mul_inv, e24, zpow_neg]
  rw [e, round_double_scaled m1 k1 (-24) hm1]

/-- C18 (amended): round trip under the generic conversion, for every value
representable as a `double`.  For every `x = m * 2^k` with `|m| < 2^53` and
`|x| < 2^39` the constructor stores `trunc(x * 2^24)`, rounded toward zero;
converting back yields `ff / 2^24`, with no rounding, which differs from `x` by
less than `2^-24`; and when `x * 2^24` is an integer (at most 24 fractional bits)
the round trip returns `x` exactly. -/
theorem C18_double_round_trip (m k : Int) (hm : |m| < 2 ^ 53)
    (hx : |(m : ℚ) * (2 : ℚ) ^ k| < 2 ^ 39) :
    (fixed.from_double ((m : ℚ) * (2 : ℚ) ^ k)).ff
      = trunc_toward_zero ((m : ℚ) * (2 : ℚ) ^ k * 2 ^ 24) ∧
    |((fixed.from_double ((m : ℚ) * (2 : ℚ) ^ k)).ff : ℚ)| ≤ |(m : ℚ) * (2 : ℚ) ^ k * 2 ^ 24| ∧
    |((fixed.from_double ((m : ℚ) * (2 : ℚ) ^ k)).ff : ℚ) - (m : ℚ) * (2 : ℚ) ^ k * 2 ^ 24| < 1 ∧
    (fixed.from_double ((m : ℚ) * (2 : ℚ) ^ k)).operator_double
      = ((fixed.from_double ((m : ℚ) * (2 : ℚ) ^ k)).ff : ℚ) / 2 ^ 24 ∧
    |(fixed.from_double ((m : ℚ) * (2 : ℚ) ^ k)).operator_double - (m : ℚ) * (2 : ℚ) ^ k|
      < 1 / 2 ^ 24 ∧
    (∀ n : Int, (m : ℚ) * (2 : ℚ) ^ k = (n : ℚ) / 2 ^ 24 →
      (fixed.from_double ((m : ℚ) * (2 : ℚ) ^ k)).operator_double = (m : ℚ) * (2 : ℚ) ^ k) := by
  have hff := fixed.from_double_ff m k hm hx
  have hop := fixed.operator_double_from_double m k hm hx
  generalize (m : ℚ) * (2 : ℚ) ^ k = x at hff hop ⊢
  have hs := trunc_toward_zero_spec (x * 2 ^ 24)
  have hp : (0 : ℚ) < 2 ^ 24 := by positivity
  refine ⟨hff, ?_, ?_, hop, ?_, ?_⟩
  · rw [hff]; exact hs.2
  · rw [hff]; exact hs.1
  · rw [hop, hff]
    have e : ((trunc_toward_zero (x * 2 ^ 24) : Int) : ℚ) / 2 ^ 24 - x
        = (((trunc_toward_zero (x * 2 ^ 24) : Int) : ℚ) - x * 2 ^ 24) / 2 ^ 24 := by
      field_simp
      ring
    rw [e, abs_div, abs_of_pos hp]
    exact div_lt_div_of_pos_right hs.1 hp
  · intro n hn
    have e : x * 2 ^ 24 = (n : ℚ) := by
      rw [hn]
      field_simp
    rw [hop, hff, e, trunc_toward_zero_intCast, hn]

/-- Witness for C18 (amended) at the `double` `x = -(1 + 2^-30)`, which has more
than 24 fractional bits. -/
theorem C18_double_round_trip_witness :
    |(fixed.from_double (((-1073741825 : Int) : ℚ) * (2 : ℚ) ^ (-30 : Int))).operator_double
        - ((-1073741825 : Int) : ℚ) * (2 : ℚ) ^ (-30 : Int)| < 1 / 2 ^ 24 :=
  (C18_double_round_trip (-1073741825) (-30) (by decide)
    (by rw [abs_lt]; constructor <;> norm_num)).2.2.2.2.1

/-- Evaluation of the rounding at a value in a known binade. -/
theorem round_double_eval (q : ℚ) (L n : Int) (h0 : 0 < q) (h1 : (2 : ℚ) ^ L ≤ q)
    (h2 : q < (2 : ℚ) ^ (L + 1)) (hn : round_half_even (q / (2 : ℚ) ^ (L - 52)) = n) :
    round_double q = (n : ℚ) * (2 : ℚ) ^ (L - 52) := by
  unfold round_double
  rw [if_neg (ne_of_gt h0), abs_of_pos h0, int_log_two_eq h0 h1 h2]
  simp only [hn]

/-- The value `2^29 + 2^-24` needs 54 significant bits; it lies half way between
two `double`s and is rounded to `2^29`. -/
theorem round_double_tie_x0 : round_double (2 ^ 29 + 1 / 2 ^ 24) = 2 ^ 29 := by
  have hn : round_half_even ((2 ^ 29 + 1 / 2 ^ 24 : ℚ) / (2 : ℚ) ^ ((29 : Int) - 52))
      = 4503599627370496 := by
    have e : (2 ^ 29 + 1 / 2 ^ 24 : ℚ) / (2 : ℚ) ^ ((29 : Int) - 52)
        = ((4503599627370496 : Int) : ℚ) + 1 / 2 := by
      norm_num [zpow_neg]
    rw [e]
    exact round_half_even_tie_even _ (by decide)
  rw [round_double_eval _ 29 _ (by norm_num) (by norm_num) (by norm_num) hn]
  norm_num [zpow_neg]

/-- The integer `2^53 + 1` is rounded to `2^53` by the conversion to `double`. -/
theorem round_double_tie_storage : round_double (9007199254740993 : ℚ) = 9007199254740992 := by
  have hn : round_half_even ((9007199254740993 : ℚ) / (2 : ℚ) ^ ((53 : Int) - 52))
      = 4503599627370496 := by
    have e : (9007199254740993 : ℚ) / (2 : ℚ) ^ ((53 : Int) - 52)
        = ((4503599627370496 : Int) : ℚ) + 1 / 2 := by
      norm_num
    rw [e]
    exact round_half_even_tie_even _ (by decide)
  rw [round_double_eval _ 53 _ (by norm_num) (by norm_num) (by norm_num) hn]
  norm_num

theorem round_double_two_pow_53 : round_double (9007199254740992 : ℚ) = 9007199254740992 := by
  have h := round_double_of_double 1 53 (by decide)
  norm_num at h
  exact h

theorem round_double_two_pow_29 : round_double (536870912 : ℚ) = 536870912 := by
  have h := round_double_intCast 536870912 (by decide)
  norm_num at h
  exact h

theorem fixed.operator_double_two_pow_53 (a : fixed) (h : a.ff = 9007199254740992) :
    a.operator_double = 536870912 := by
  unfold fixed.operator_double
  rw [h]
  push_cast
  rw [round_double_two_pow_53]
  norm_num
  exact round_double_two_pow_29

theorem fixed.from_double_x0 :
    fixed.from_double (2 ^ 29 + 1 / 2 ^ 24) = fixed.store 9007199254740992 := by
  unfold fixed.from_double
  rw [round_double_tie_x0]
  norm_num
  rw [round_double_two_pow_53]
  have e : (9007199254740992 : ℚ) = ((9007199254740992 : Int) : ℚ) := by norm_num
  rw [e, trunc_toward_zero_intCast]

/-- C18 (counterexample): the rational `x = 2^29 + 2^-24` has magnitude below
`2^39` and at most 24 fractional bits, with `trunc(x * 2^24) = 2^53 + 1`, but it is
not a `double`: the constructor receives `2^29` and stores `2^53`, the round trip
returns `2^29`, which is not `x` and is not closer to `x` than `2^-24`.  Moreover
`operator double` on the storage `2^53 + 1` returns `2^29`, not
`(2^53 + 1) / 2^24`. -/
theorem C18_non_double_counterexample :
    |(2 ^ 29 + 1 / 2 ^ 24 : ℚ)| < 2 ^ 39 ∧
    (2 ^ 29 + 1 / 2 ^ 24 : ℚ) = ((9007199254740993 : Int) : ℚ) / 2 ^ 24 ∧
    trunc_toward_zero ((2 ^ 29 + 1 / 2 ^ 24 : ℚ) * 2 ^ 24) = 9007199254740993 ∧
    (fixed.from_double (2 ^ 29 + 1 / 2 ^ 24)).ff = 9007199254740992 ∧
    (fixed.from_double (2 ^ 29 + 1 / 2 ^ 24)).operator_double = 2 ^ 29 ∧
    ¬ |(fixed.from_double (2 ^ 29 + 1 / 2 ^ 24)).operator_double - (2 ^ 29 + 1 / 2 ^ 24)|
        < 1 / 2 ^ 24 ∧
    (fixed.store 9007199254740993).operator_double = 2 ^ 29 ∧
    (fixed.store 9007199254740993).operator_double
      ≠ ((fixed.store 9007199254740993).ff : ℚ) / 2 ^ 24 := by
  have hop : (fixed.from_double (2 ^ 29 + 1 / 2 ^ 24)).operator_double = 2 ^ 29 := by
    rw [fixed.from_double_x0, fixed.operator_double_two_pow_53 _ (by decide)]
    norm_num
  have hst : (fixed.store 9007199254740993).operator_double = 2 ^ 29 := by
    have hff : (fixed.store 9007199254740993).ff = 9007199254740993 := by decide
    unfold fixed.operator_double
    rw [hff]
    push_cast
    rw [round_double_tie_storage]
    norm_num
    exact round_double_two_pow_29
  refine ⟨?_, ?_, ?_, ?_, hop, ?_, hst, ?_⟩
  · rw [abs_lt]
    constructor <;> norm_num
  · norm_num
  · have e : (2 ^ 29 + 1 / 2 ^ 24 : ℚ) * 2 ^ 24 = ((9007199254740993 : Int) : ℚ) := by norm_num
    rw [e, trunc_toward_zero_intCast]
  · rw [fixed.from_double_x0]
    decide
  · rw [hop]
    norm_num [abs_lt]
  · rw [hst]
    have hff : (fixed.store 9007199254740993).ff = 9007199254740993 := by decide
    rw [hff]
    norm_num

/-- The constructor applied to a value `n / 2^24` with `|n| < 2^53` stores `n`. -/
theorem fixed.from_double_scaled (n : Int) (hn : |n| < 2 ^ 53) :
    fixed.from_double ((n : ℚ) / 2 ^ 24) = fixed.store n := by
  have e : (n : ℚ) / 2 ^ 24 = (n : ℚ) * (2 : ℚ) ^ (-24 : Int) := by
    rw [div_eq_mul_inv, zpow_neg]
    norm_num
  have e2 : (n : ℚ) * (2 : ℚ) ^ (-24 : Int) * 2 ^ 24 = (n : ℚ) := by
    rw [zpow_neg]
    norm_num
    ring
  unfold fixed.from_double
  rw [e, round_double_of_double n (-24) hn, e2, round_double_intCast n hn,
    trunc_toward_zero_intCast]

/-! ## The shift scheme of division (C23, C24, C29, C30) -/

/-- Sign extraction returns the magnitude and flips the flag for a negative
storage, for every storage other than `-2^63`. -/
theorem strip_sign_abs {a : Int} (s : Bool) (hr : InInt64 a) (hmin : a ≠ -2 ^ 63) :
    strip_sign a s = (|a|, xor s (decide (a < 0))) := by
  rcases lt_or_le a 0 with h | h
  · rw [strip_sign_of_neg s hr h hmin, abs_of_neg h]
    simp [h]
  · rw [strip_sign_of_nonneg s h, abs_of_nonneg h]
    simp [not_lt.mpr h]

/-- The normal branch of division on magnitudes: nothing wraps when the
dividend magnitude is below `2^53` and the shifted quotient below `2^63`. -/
theorem div_core (A B : Int) (flag : Bool) (hA : 0 ≤ A) (hA2 : A < 2 ^ 53)
    (hB : 2 ^ 8 ≤ B) (hq : A * 2 ^ 10 / (B / 2 ^ 8) * 2 ^ 6 < 2 ^ 63) :
    (idiv64 (shl64 A 10) (shr B 8)).map
        (fun q => fixed.store (if flag != false then neg64 (shl64 q 6) else shl64 q 6))
      = Except.ok (fixed.store
          (if flag then -(A * 2 ^ 10 / (B / 2 ^ 8) * 2 ^ 6)
            else A * 2 ^ 10 / (B / 2 ^ 8) * 2 ^ 6)) := by
  have hd : 1 ≤ B / 2 ^ 8 := by omega
  have hs : shl64 A 10 = A * 2 ^ 10 := by
    unfold shl64
    exact wrap64_eq_self ⟨by omega, by omega⟩
  have hq0 : 0 ≤ A * 2 ^ 10 / (B / 2 ^ 8) := Int.ediv_nonneg (by omega) (by omega)
  rw [hs]
  unfold shr
  rw [idiv64_ok (by omega) (by omega), Int.tdiv_eq_ediv (by omega) (by omega)]
  show Except.ok _ = Except.ok _
  generalize A * 2 ^ 10 / (B / 2 ^ 8) = q at hq hq0 ⊢
  have h6 : shl64 q 6 = q * 2 ^ 6 := by
    unfold shl64
    exact wrap64_eq_self ⟨by omega, by omega⟩
  have hn : neg64 (q * 2 ^ 6) = -(q * 2 ^ 6) := by
    unfold neg64
    exact wrap64_eq_self ⟨by omega, by omega⟩
  beta_reduce
  rw [h6, hn]
  cases flag <;> simp

theorem flag_eq_parity_sign (a b Q : Int) :
    (if xor (xor false (decide (a < 0))) (decide (b < 0)) then -Q else Q)
      = parity_sign a b * Q := by
  unfold parity_sign
  by_cases h1 : a < 0 <;> by_cases h2 : b < 0 <;> simp [h1, h2]

/-- The unguarded division of `fixed.h` on operands in the normal range. -/
theorem fixed_h.operator_div_scheme (a b : fixed)
    (ha : |a.ff| < 2 ^ 53) (hb : 2 ^ 8 ≤ |b.ff|) (hbm : b.ff ≠ -2 ^ 63)
    (hq : |a.ff| * 2 ^ 10 / (|b.ff| / 2 ^ 8) * 2 ^ 6 < 2 ^ 63) :
    fixed_h.operator_div a b
      = Except.ok (fixed.store
          (parity_sign a.ff b.ff * (|a.ff| * 2 ^ 10 / (|b.ff| / 2 ^ 8) * 2 ^ 6))) := by
  have ha2 := abs_lt.mp ha
  have ham : a.ff ≠ -2 ^ 63 := by omega
  simp only [fixed_h.operator_div, strip_sign_abs _ a.inRange ham,
    strip_sign_abs _ b.inRange hbm]
  rw [div_core |a.ff| |b.ff| _ (abs_nonneg _) ha hb hq, flag_eq_parity_sign]

/-- The guarded division of `fixed.hpp` coincides with the unguarded one when
the reduced divisor magnitude is not zero. -/
theorem fixed.operator_div_with_eq_h (pos neg : Int) (a b : fixed)
    (h : shr (strip_sign b.ff (strip_sign a.ff false).2).1 8 ≠ 0) :
    fixed.operator_div_with pos neg a b = fixed_h.operator_div a b := by
  simp only [fixed.operator_div_with, fixed_h.operator_div, ne_eq, h, not_false_eq_true,
    if_true]

theorem fixed.operator_div_with_scheme (pos neg : Int) (a b : fixed)
    (ha : |a.ff| < 2 ^ 53) (hb : 2 ^ 8 ≤ |b.ff|) (hbm : b.ff ≠ -2 ^ 63)
    (hq : |a.ff| * 2 ^ 10 / (|b.ff| / 2 ^ 8) * 2 ^ 6 < 2 ^ 63) :
    fixed.operator_div_with pos neg a b
      = Except.ok (fixed.store
          (parity_sign a.ff b.ff * (|a.ff| * 2 ^ 10 / (|b.ff| / 2 ^ 8) * 2 ^ 6))) := by
  rw [fixed.operator_div_with_eq_h, fixed_h.operator_div_scheme a b ha hb hbm hq]
  have ha2 := abs_lt.mp ha
  rw [strip_sign_abs _ a.inRange (by omega), strip_sign_abs _ b.inRange hbm]
  simp only [shr]
  omega

theorem parity_sign_mul_ff (a b Q : Int) (h0 : 0 ≤ Q) (h1 : Q < 2 ^ 63) :
    (fixed.store (parity_sign a b * Q)).ff = parity_sign a b * Q := by
  rw [fixed.store_ff]
  apply wrap64_eq_self
  unfold parity_sign InInt64
  split_ifs <;> constructor <;> omega

/-- C23: division follows the documented shift scheme.  For every `a` and `b`
with `|a.ff| < 2^53`, `|b.ff| ≥ 2^8`, `b.ff` other than `-2^63` and the shifted
quotient below `2^63`, `a / b` returns the storage
`s * (((|a.ff| * 2^10) div (|b.ff| div 2^8)) * 2^6)`, with `s = -1` when exactly
one storage is negative and `s = +1` otherwise, in `fixed.hpp` and in `fixed.h`. -/
theorem C23_division_shift_scheme (a b : fixed)
    (ha : |a.ff| < 2 ^ 53) (hb : 2 ^ 8 ≤ |b.ff|) (hbm : b.ff ≠ -2 ^ 63)
    (hq : |a.ff| * 2 ^ 10 / (|b.ff| / 2 ^ 8) * 2 ^ 6 < 2 ^ 63) :
    ∃ r, a.operator_div b = Except.ok r ∧ fixed_h.operator_div a b = Except.ok r ∧
      r.ff = (if (a.ff < 0 ∧ ¬ b.ff < 0) ∨ (¬ a.ff < 0 ∧ b.ff < 0) then -1 else 1)
        * (|a.ff| * 2 ^ 10 / (|b.ff| / 2 ^ 8) * 2 ^ 6) := by
  have hq0 : 0 ≤ |a.ff| * 2 ^ 10 / (|b.ff| / 2 ^ 8) * 2 ^ 6 :=
    mul_nonneg (Int.ediv_nonneg (mul_nonneg (abs_nonneg _) (by positivity))
      (Int.ediv_nonneg (abs_nonneg _) (by positivity))) (by positivity)
  refine ⟨_, fixed.operator_div_with_scheme _ _ a b ha hb hbm hq,
    fixed_h.operator_div_scheme a b ha hb hbm hq, ?_⟩
  rw [parity_sign_mul_ff _ _ _ hq0 hq]
  congr 1
  unfold parity_sign
  by_cases h1 : a.ff < 0 <;> by_cases h2 : b.ff < 0 <;> simp [h1, h2]

/-- Witness for C23 at `fixed(-7) / fixed(2)`: the result is `fixed(-3.5)`. -/
theorem C23_division_shift_scheme_witness :
    ∃ r, (fixed.from_signed (-7)).operator_div (fixed.from_signed 2) = Except.ok r ∧
      fixed_h.operator_div (fixed.from_signed (-7)) (fixed.from_signed 2) = Except.ok r ∧
      r.ff = (if ((fixed.from_signed (-7)).ff < 0 ∧ ¬ (fixed.from_signed 2).ff < 0)
                ∨ (¬ (fixed.from_signed (-7)).ff < 0 ∧ (fixed.from_signed 2).ff < 0)
              then -1 else 1)
        * (|(fixed.from_signed (-7)).ff| * 2 ^ 10 / (|(fixed.from_signed 2).ff| / 2 ^ 8) * 2 ^ 6) :=
  C23_division_shift_scheme (fixed.from_signed (-7)) (fixed.from_signed 2)
    (by decide) (by decide) (by decide) (by decide)

/-- The reduced magnitude of a divisor of storage magnitude below `2^8` is zero. -/
theorem reduced_divisor_eq_zero (b : fixed) (s : Bool) (hb : |b.ff| < 2 ^ 8) :
    shr (strip_sign b.ff s).1 8 = 0 := by
  have hb2 := abs_lt.mp hb
  unfold strip_sign
  split_ifs <;> simp only [shr, neg64, wrap64] <;> omega

/-- C24: the zero-divisor branch is taken for every divisor whose reduced
magnitude is zero.  For every `a` and every `b` with `|b.ff| < 2^8` the reduced
divisor is `0`, so that the divide, if executed, would fault (as it does in
`fixed.h`); `a / b` returns instead the positive constant when the wrapped
product `a.ff * b.ff` is `≥ 0` and the negative constant when it is `< 0`,
whatever the two constants are. -/
theorem C24_zero_divisor_branch (pos neg : Int) (a b : fixed) (hb : |b.ff| < 2 ^ 8) :
    shr (strip_sign b.ff (strip_sign a.ff false).2).1 8 = 0 ∧
    fixed_h.operator_div a b = Except.error Fault.div_by_zero ∧
    fixed.operator_div_with pos neg a b
      = Except.ok (fixed.store (if mul64 a.ff b.ff ≥ 0 then pos else neg)) ∧
    a.operator_div b
      = Except.ok (fixed.store (if mul64 a.ff b.ff ≥ 0 then big_positive else big_negative)) := by
  have h0 := reduced_divisor_eq_zero b (strip_sign a.ff false).2 hb
  have hw : ∀ p n : Int, fixed.operator_div_with p n a b
      = Except.ok (fixed.store (if mul64 a.ff b.ff ≥ 0 then p else n)) := by
    intro p n
    simp only [fixed.operator_div_with, h0, ne_eq, not_true_eq_false, if_false]
    split_ifs <;> rfl
  refine ⟨h0, ?_, hw pos neg, hw _ _⟩
  simp only [fixed_h.operator_div, h0, idiv64, if_true]
  rfl

/-- Witness for C24 at `a = fixed(-10)` and `b` of storage `255`: the wrapped
product is negative and the negative constant is returned. -/
theorem C24_zero_divisor_branch_witness :
    fixed.operator_div_with 111 (-111) (fixed.from_signed (-10)) (fixed.store 255)
      = Except.ok (fixed.store (-111)) :=
  (C24_zero_divisor_branch 111 (-111) (fixed.from_signed (-10)) (fixed.store 255)
    (by decide)).2.2.1.trans (by decide)

/-- C29: every quotient has its low 6 bits zero.  For every `a` and `b`,
`a / b` of `fixed.hpp` returns a storage that is a multiple of `2^6`, in the
normal branch and in the zero-divisor branch. -/
theorem C29_quotient_low_bits_zero (a b : fixed) :
    ∃ r, a.operator_div b = Except.ok r ∧ r.ff % 2 ^ 6 = 0 := by
  unfold fixed.operator_div fixed.operator_div_with
  by_cases hb : shr (strip_sign b.ff (strip_sign a.ff false).2).1 8 = 0
  · simp only [hb, ne_eq, not_true_eq_false, if_false]
    split_ifs
    · exact ⟨_, rfl, by decide⟩
    · exact ⟨_, rfl, by decide⟩
  · simp only [ne_eq, hb, not_false_eq_true, if_true,
      idiv64_ok hb (reduced_divisor_ne_neg_one b _)]
    refine ⟨_, rfl, ?_⟩
    simp only [fixed.store_ff]
    split_ifs <;> simp only [neg64, shl64, wrap64] <;> omega

/-- The combined sign applied to the magnitude of an exact quotient `k` of
`y * k` by `y` gives `k`. -/
theorem parity_sign_mul_abs_quot (y k u v : Int) (hy : y ≠ 0)
    (hu : u < 0 ↔ y * k < 0) (hv : v < 0 ↔ y < 0) :
    parity_sign u v * |k| = k := by
  unfold parity_sign
  rcases lt_trichotomy k 0 with hk | hk | hk
  · rcases lt_or_gt_of_ne hy with h | h
    · have hp : ¬ y * k < 0 := not_lt.mpr (le_of_lt (mul_pos_of_neg_of_neg h hk))
      rw [abs_of_neg hk]
      simp [hu, hv, hp, h]
    · have hp : y * k < 0 := mul_neg_of_pos_of_neg h hk
      have hn : ¬ y < 0 := not_lt.mpr (le_of_lt h)
      rw [abs_of_neg hk]
      simp [hu, hv, hp, hn]
  · simp [hk]
  · rcases lt_or_gt_of_ne hy with h | h
    · have hp : y * k < 0 := mul_neg_of_neg_of_pos h hk
      rw [abs_of_pos hk]
      simp [hu, hv, hp, h]
    · have hp : ¬ y * k < 0 := not_lt.mpr (le_of_lt (mul_pos h hk))
      have hn : ¬ y < 0 := not_lt.mpr (le_of_lt h)
      rw [abs_of_pos hk]
      simp [hu, hv, hp, hn]

/-- C30: division is exact on divisible integers while the dividend is small.
For all integers `x`, `y` with `|x| < 2^29`, `0 < |y| < 2^39` and `y` dividing
`x`, `fixed(x) / fixed(y) == fixed(x / y)`. -/
theorem C30_division_exact_on_divisible (x y : Int)
    (hx : |x| < 2 ^ 29) (hy0 : 0 < |y|) (hy : |y| < 2 ^ 39) (hd : y ∣ x) :
    ∃ r, (fixed.from_signed x).operator_div (fixed.from_signed y) = Except.ok r ∧
      r.operator_eq (fixed.from_signed (x / y)) = true := by
  obtain ⟨k, rfl⟩ := hd
  have hyne : y ≠ 0 := abs_pos.mp hy0
  have hquot : y * k / y = k := Int.mul_ediv_cancel_left k hyne
  have hxk : |y * k| = |y| * |k| := abs_mul y k
  have hk : |k| ≤ |y * k| := by
    rw [hxk]
    exact le_mul_of_one_le_left (abs_nonneg _) hy0
  have hx2 := abs_lt.mp hx
  have hy2 := abs_lt.mp hy
  have hk2 := abs_le.mp (le_trans hk (le_of_lt hx))
  have ex := @fixed.from_signed_ff_exact (y * k) ⟨by omega, by omega⟩
  have ey := @fixed.from_signed_ff_exact y ⟨by omega, by omega⟩
  have ek := @fixed.from_signed_ff_exact k ⟨by omega, by omega⟩
  have hax : |y * k * 2 ^ 24| = |y * k| * 2 ^ 24 := by
    rw [abs_mul, abs_of_pos (by positivity : (0 : Int) < 2 ^ 24)]
  have hay : |y * 2 ^ 24| = |y| * 2 ^ 24 := by
    rw [abs_mul, abs_of_pos (by positivity : (0 : Int) < 2 ^ 24)]
  have hdiv : |y| * 2 ^ 24 / 2 ^ 8 = |y| * 2 ^ 16 := by omega
  have hpos : |y| * 2 ^ 16 ≠ 0 := by omega
  have hQ : |y * k| * 2 ^ 24 * 2 ^ 10 / (|y| * 2 ^ 24 / 2 ^ 8) = |k| * 2 ^ 18 := by
    rw [hdiv, hxk]
    have e : |y| * |k| * 2 ^ 24 * 2 ^ 10 = |y| * 2 ^ 16 * (|k| * 2 ^ 18) := by ring
    rw [e, Int.mul_ediv_cancel_left _ hpos]
  have hk0 : 0 ≤ |k| := abs_nonneg k
  have hkb : |k| < 2 ^ 29 := lt_of_le_of_lt hk hx
  have hs := fixed.operator_div_with_scheme big_positive big_negative
    (fixed.from_signed (y * k)) (fixed.from_signed y)
    (by rw [ex, hax]; omega) (by rw [ey, hay]; omega) (by rw [ey]; omega)
    (by rw [ex, ey, hax, hay, hQ]; omega)
  refine ⟨_, hs, ?_⟩
  rw [ex, ey, hax, hay, hQ, hquot]
  simp only [fixed.operator_eq, decide_eq_true_eq, ek]
  rw [parity_sign_mul_ff _ _ _ (by omega) (by omega)]
  have e2 : |k| * 2 ^ 18 * 2 ^ 6 = |k| * 2 ^ 24 := by ring
  rw [e2, ← mul_assoc,
    parity_sign_mul_abs_quot y k (y * k * 2 ^ 24) (y * 2 ^ 24) hyne
      (by constructor <;> intro h <;> omega) (by omega)]

/-- Witness for C30 at `x = -84`, `y = 7`: `fixed(-84) / fixed(7) == fixed(-12)`. -/
theorem C30_division_exact_on_divisible_witness :
    ∃ r, (fixed.from_signed (-84)).operator_div (fixed.from_signed 7) = Except.ok r ∧
      r.operator_eq (fixed.from_signed (-84 / 7)) = true :=
  C30_division_exact_on_divisible (-84) 7 (by decide) (by decide) (by decide) (by decide)

/-! ## Compound assignment with same-type operands (C26) -/

/-- C26: compound assignment agrees with the binary operator for same-type
operands.  For every `a` and `b`, the value left in `a` by `a += b`, `a -= b`,
`a *= b`, `a /= b` is the value returned by `a + b`, `a - b`, `a * b`, `a / b`;
for `/` this includes the zero-divisor branch. -/
theorem C26_compound_agrees_with_binary (a b : fixed) :
    a.operator_add_assign b = a.operator_add b ∧
    a.operator_sub_assign b = a.operator_sub b ∧
    a.operator_mul_assign b = a.operator_mul b ∧
    a.operator_div_assign b = a.operator_div b := by
  refine ⟨rfl, rfl, rfl, ?_⟩
  unfold fixed.operator_div_assign fixed.operator_div fixed.operator_div_with
  rfl

/-! ## Fast bit-level conversion to floating point, on bit patterns (C25) -/

/-- C25: fast conversion to `double` and `float`, on the IEEE-754 bit pattern.
For every 64-bit pattern `p`: the guard `(p << 1) < (25 << 53)` holds exactly
when the 11-bit exponent field `(p >> 52) mod 2^11` is below 25; in that case
the result is the pattern `0` of `0.0`; otherwise the result is
`p - (24 << 52)`, with the sign bit and the 52 mantissa bits of `p` and the
exponent field lowered by exactly 24.  The same holds for every 32-bit pattern
`q`, with the 8-bit exponent field at bits 23..30. -/
theorem C25_fast_conversion_on_bit_patterns (p q : Int)
    (hp : 0 ≤ p ∧ p < 2 ^ 64) (hq : 0 ≤ q ∧ q < 2 ^ 32) :
    ((wrapU64 (wrapU64 p * 2 ^ 1) < wrapU64 (25 * 2 ^ 53) ↔ p / 2 ^ 52 % 2 ^ 11 < 25) ∧
     (p / 2 ^ 52 % 2 ^ 11 < 25 → fixed.operator_double_fast_bits p = 0) ∧
     (25 ≤ p / 2 ^ 52 % 2 ^ 11 →
        fixed.operator_double_fast_bits p = p - 24 * 2 ^ 52 ∧
        fixed.operator_double_fast_bits p / 2 ^ 63 = p / 2 ^ 63 ∧
        fixed.operator_double_fast_bits p % 2 ^ 52 = p % 2 ^ 52 ∧
        fixed.operator_double_fast_bits p / 2 ^ 52 % 2 ^ 11 = p / 2 ^ 52 % 2 ^ 11 - 24)) ∧
    ((wrapU32 (wrapU32 q * 2 ^ 1) < wrapU32 (25 * 2 ^ 24) ↔ q / 2 ^ 23 % 2 ^ 8 < 25) ∧
     (q / 2 ^ 23 % 2 ^ 8 < 25 → fixed.operator_float_fast_bits q = 0) ∧
     (25 ≤ q / 2 ^ 23 % 2 ^ 8 →
        fixed.operator_float_fast_bits q = q - 24 * 2 ^ 23 ∧
        fixed.operator_float_fast_bits q / 2 ^ 31 = q / 2 ^ 31 ∧
        fixed.operator_float_fast_bits q % 2 ^ 23 = q % 2 ^ 23 ∧
        fixed.operator_float_fast_bits q / 2 ^ 23 % 2 ^ 8 = q / 2 ^ 23 % 2 ^ 8 - 24)) := by
  refine ⟨⟨?_, ?_, ?_⟩, ⟨?_, ?_, ?_⟩⟩
  · simp only [wrapU64]
    constructor <;> intro h <;> omega
  · intro h
    simp only [fixed.operator_double_fast_bits, wrapU64]
    split_ifs <;> omega
  · intro h
    simp only [fixed.operator_double_fast_bits, wrapU64]
    split_ifs <;> omega
  · simp only [wrapU32]
    constructor <;> intro h <;> omega
  · intro h
    simp only [fixed.operator_float_fast_bits, wrapU32]
    split_ifs <;> omega
  · intro h
    simp only [fixed.operator_float_fast_bits, wrapU32]
    split_ifs <;> omega

/-- Witness for C25 at the patterns of `-2^24` (as a `double`,
`0xC170000000000000`, converted to the pattern `0xBFF0000000000000` of `-1.0`)
and of `2^24` (as a `float`, `0x4B800000`, converted to the pattern `0x3F800000`
of `1.0`). -/
theorem C25_fast_conversion_on_bit_patterns_witness :
    fixed.operator_double_fast_bits 13938640846711685120 = 13830554455654793216 ∧
    fixed.operator_float_fast_bits 1266679808 = 1065353216 :=
  ⟨((C25_fast_conversion_on_bit_patterns 13938640846711685120 1266679808
      (by decide) (by decide)).1.2.2 (by decide)).1.trans (by decide),
   ((C25_fast_conversion_on_bit_patterns 13938640846711685120 1266679808
      (by decide) (by decide)).2.2.2 (by decide)).1.trans (by decide)⟩

/-! ## Range and exactness of the reduced multiply (C21, C22) -/

/-- The product of the reduced magnitudes is at most the product of the
magnitudes divided by `2^16`. -/
theorem reduced_product_lt (A B : Int) (hA : 0 ≤ A) (hB : 0 ≤ B) (h : A * B < 2 ^ 79) :
    0 ≤ A / 2 ^ 8 * (B / 2 ^ 8) ∧ A / 2 ^ 8 * (B / 2 ^ 8) < 2 ^ 63 := by
  have ha1 : 0 ≤ A / 2 ^ 8 := Int.ediv_nonneg hA (by positivity)
  have hb1 : 0 ≤ B / 2 ^ 8 := Int.ediv_nonneg hB (by positivity)
  have ha2 : A / 2 ^ 8 * 2 ^ 8 ≤ A := by omega
  have hb2 : B / 2 ^ 8 * 2 ^ 8 ≤ B := by omega
  have hm : A / 2 ^ 8 * 2 ^ 8 * (B / 2 ^ 8 * 2 ^ 8) ≤ A * B :=
    mul_le_mul ha2 hb2 (by omega) hA
  have e : A / 2 ^ 8 * 2 ^ 8 * (B / 2 ^ 8 * 2 ^ 8) = A / 2 ^ 8 * (B / 2 ^ 8) * 2 ^ 16 := by ring
  rw [e] at hm
  have h0 : 0 ≤ A / 2 ^ 8 * (B / 2 ^ 8) := mul_nonneg ha1 hb1
  generalize A / 2 ^ 8 * (B / 2 ^ 8) = P at hm h0 ⊢
  constructor <;> omega

/-- C21 (counterexample): `fixed(100000)` and `fixed(100000)`, and their product
`10^10`, lie well inside the representable range, yet the product of the two
reduced magnitudes is `10^10 * 2^32 > 2^63`: it does not fit, the 64-bit multiply
wraps, and `fixed(100000) * fixed(100000)` is not `fixed(10^10)`. -/
theorem C21_reduced_product_counterexample :
    |(fixed.from_signed 100000).ff| / 2 ^ 24 < 2 ^ 39 ∧
    ¬ InInt64 (shr |(fixed.from_signed 100000).ff| 8 * shr |(fixed.from_signed 100000).ff| 8) ∧
    mul64 (shr |(fixed.from_signed 100000).ff| 8) (shr |(fixed.from_signed 100000).ff| 8)
      ≠ shr |(fixed.from_signed 100000).ff| 8 * shr |(fixed.from_signed 100000).ff| 8 ∧
    ((fixed.from_signed 100000).operator_mul (fixed.from_signed 100000)).ff
      ≠ (fixed.from_signed 10000000000).ff := by
  decide

/-- C21 (amended): for every `a` and `b` with storages of magnitude below `2^63`
and `|a.ff| * |b.ff| < 2^79`, the two working values of `operator *` after the
shift by 8 are the reduced magnitudes, their product is in `[0, 2^63)`, and the
64-bit multiply does not wrap. -/
theorem C21_reduced_product_fits (a b : fixed)
    (ha : |a.ff| < 2 ^ 63) (hb : |b.ff| < 2 ^ 63) (h : |a.ff| * |b.ff| < 2 ^ 79) :
    shr (strip_sign a.ff false).1 8 = |a.ff| / 2 ^ 8 ∧
    shr (strip_sign b.ff (strip_sign a.ff false).2).1 8 = |b.ff| / 2 ^ 8 ∧
    0 ≤ |a.ff| / 2 ^ 8 * (|b.ff| / 2 ^ 8) ∧
    |a.ff| / 2 ^ 8 * (|b.ff| / 2 ^ 8) < 2 ^ 63 ∧
    mul64 (shr (strip_sign a.ff false).1 8) (shr (strip_sign b.ff (strip_sign a.ff false).2).1 8)
      = |a.ff| / 2 ^ 8 * (|b.ff| / 2 ^ 8) := by
  have ha2 := abs_lt.mp ha
  have hb2 := abs_lt.mp hb
  have hP := reduced_product_lt |a.ff| |b.ff| (abs_nonneg _) (abs_nonneg _) h
  rw [strip_sign_abs _ a.inRange (by omega), strip_sign_abs _ b.inRange (by omega)]
  refine ⟨rfl, rfl, hP.1, hP.2, ?_⟩
  simp only [mul64, shr]
  exact wrap64_eq_self ⟨by omega, hP.2⟩

/-- Witness for C21 (amended) at `fixed(-40000)` and `fixed(50000)`. -/
theorem C21_reduced_product_fits_witness :
    mul64 (shr (strip_sign (fixed.from_signed (-40000)).ff false).1 8)
        (shr (strip_sign (fixed.from_signed 50000).ff
          (strip_sign (fixed.from_signed (-40000)).ff false).2).1 8)
      = |(fixed.from_signed (-40000)).ff| / 2 ^ 8 * (|(fixed.from_signed 50000).ff| / 2 ^ 8) :=
  (C21_reduced_product_fits (fixed.from_signed (-40000)) (fixed.from_signed 50000)
    (by decide) (by decide) (by decide)).2.2.2.2

/-- The combined sign applied to the floor quotient of the magnitudes is the
quotient of the signed product rounded toward zero. -/
theorem parity_sign_mul_tdiv (a b : Int) (n : Nat) :
    parity_sign a b * (|a| * |b| / 2 ^ n) = Int.tdiv (a * b) (2 ^ n) := by
  have hd : (0 : Int) ≤ 2 ^ n := by positivity
  unfold parity_sign
  rcases lt_or_le a 0 with ha | ha <;> rcases lt_or_le b 0 with hb | hb
  · rw [abs_of_neg ha, abs_of_neg hb, neg_mul_neg,
      Int.tdiv_eq_ediv (le_of_lt (mul_pos_of_neg_of_neg ha hb)) hd]
    simp [ha, hb]
  · have e : a * b = -(-a * b) := by ring
    rw [abs_of_neg ha, abs_of_nonneg hb, e, Int.neg_tdiv,
      Int.tdiv_eq_ediv (mul_nonneg (by omega) hb) hd]
    simp [ha, not_lt.mpr hb]
  · have e : a * b = -(a * -b) := by ring
    rw [abs_of_nonneg ha, abs_of_neg hb, e, Int.neg_tdiv,
      Int.tdiv_eq_ediv (mul_nonneg ha (by omega)) hd]
    simp [hb, not_lt.mpr ha]
  · rw [abs_of_nonneg ha, abs_of_nonneg hb, Int.tdiv_eq_ediv (mul_nonneg ha hb) hd]
    simp [not_lt.mpr ha, not_lt.mpr hb]

/-- On storages that are multiples of `2^8`, other than `-2^63`, with
`|a.ff| * |b.ff| < 2^79`, the product is the exact one rounded toward zero. -/
theorem fixed.operator_mul_ff_tdiv (a b : fixed)
    (ha : a.ff ≠ -2 ^ 63) (hb : b.ff ≠ -2 ^ 63)
    (hma : a.ff % 2 ^ 8 = 0) (hmb : b.ff % 2 ^ 8 = 0) (h : |a.ff| * |b.ff| < 2 ^ 79) :
    (a.operator_mul b).ff = Int.tdiv (a.ff * b.ff) (2 ^ 24) := by
  have hP := reduced_product_lt |a.ff| |b.ff| (abs_nonneg _) (abs_nonneg _) h
  rw [fixed.operator_mul_ff_scheme a b ha hb hP.2, ← parity_sign_mul_tdiv]
  congr 1
  obtain ⟨p, hp1, hp2⟩ : ∃ p, |a.ff| / 2 ^ 8 = p ∧ |a.ff| = p * 2 ^ 8 := by
    refine ⟨|a.ff| / 2 ^ 8, rfl, ?_⟩
    rcases abs_cases a.ff with ⟨h1, _⟩ | ⟨h1, _⟩ <;> rw [h1] <;> omega
  obtain ⟨q, hq1, hq2⟩ : ∃ q, |b.ff| / 2 ^ 8 = q ∧ |b.ff| = q * 2 ^ 8 := by
    refine ⟨|b.ff| / 2 ^ 8, rfl, ?_⟩
    rcases abs_cases b.ff with ⟨h1, _⟩ | ⟨h1, _⟩ <;> rw [h1] <;> omega
  simp only [shr]
  rw [hp1, hq1, hp2, hq2]
  have e : p * 2 ^ 8 * (q * 2 ^ 8) = p * q * 2 ^ 16 := by ring
  rw [e]
  generalize p * q = t
  omega

/-- The product of the storages of two integers with `|x * y| < 2^31` is the
storage of `x * y`, for all integers `x` and `y`. -/
theorem fixed.operator_mul_from_signed_eq (x y : Int) (hxy : |x * y| < 2 ^ 31) :
    ((fixed.from_signed x).operator_mul (fixed.from_signed y)).ff
      = (fixed.from_signed (x * y)).ff := by
  by_cases hx0 : x = 0
  · rw [hx0, zero_mul,
      fixed.operator_mul_zero_left _ _ fixed.from_signed_zero_ff, fixed.from_signed_zero_ff]
  by_cases hy0 : y = 0
  · rw [hy0, mul_zero,
      fixed.operator_mul_zero_right _ _ fixed.from_signed_zero_ff, fixed.from_signed_zero_ff]
  have hx1 : 1 ≤ |x| := Int.one_le_abs hx0
  have hy1 : 1 ≤ |y| := Int.one_le_abs hy0
  have hxle : |x| ≤ |x * y| := by
    rw [abs_mul]
    exact le_mul_of_one_le_right (abs_nonneg _) hy1
  have hyle : |y| ≤ |x * y| := by
    rw [abs_mul]
    exact le_mul_of_one_le_left (abs_nonneg _) hx1
  have hxy2 := abs_lt.mp hxy
  rw [fixed.operator_mul_from_signed x y (by omega) (by omega) hxy,
    @fixed.from_signed_ff_exact (x * y) ⟨by omega, by omega⟩]

/-- The example `fixed(1.5) * fixed(2.0) == fixed(3.0)`. -/
theorem fixed.operator_mul_three_halves_two :
    ((fixed.from_double (3 / 2)).operator_mul (fixed.from_double 2)).operator_eq
      (fixed.from_double 3) = true := by
  have f1 : fixed.from_double (3 / 2) = fixed.store 25165824 := by
    have e : (3 / 2 : ℚ) = ((25165824 : Int) : ℚ) / 2 ^ 24 := by norm_num
    rw [e]
    exact fixed.from_double_scaled _ (by decide)
  have f2 : fixed.from_double 2 = fixed.store 33554432 := by
    have e : (2 : ℚ) = ((33554432 : Int) : ℚ) / 2 ^ 24 := by norm_num
    rw [e]
    exact fixed.from_double_scaled _ (by decide)
  have f3 : fixed.from_double 3 = fixed.store 50331648 := by
    have e : (3 : ℚ) = ((50331648 : Int) : ℚ) / 2 ^ 24 := by norm_num
    rw [e]
    exact fixed.from_double_scaled _ (by decide)
  rw [f1, f2, f3]
  decide

/-- C22 (evaluation of the code): the storage `-2^63` is reached without overflow
as `fixed(-2^38) + fixed(-2^38)`, and the storage `2^8` as
`fixed(1) / fixed(65536)`; both are multiples of `2^8` and
`|a.ff| * |b.ff| = 2^71 < 2^79`; yet their product has storage `2^47`, while
`a.ff * b.ff / 2^24` rounded toward zero is `-2^47`: the sign-extraction step
leaves `-2^63` negative. -/
theorem C22_product_at_min_storage :
    ((fixed.from_signed (-274877906944)).operator_add (fixed.from_signed (-274877906944))).ff
      = -9223372036854775808 ∧
    (fixed.from_signed 1).operator_div (fixed.from_signed 65536) = Except.ok (fixed.store 256) ∧
    (fixed.store (-9223372036854775808)).ff = -9223372036854775808 ∧
    (fixed.store (-9223372036854775808)).ff % 2 ^ 8 = 0 ∧ (fixed.store 256).ff % 2 ^ 8 = 0 ∧
    |(fixed.store (-9223372036854775808)).ff| * |(fixed.store 256).ff| < 2 ^ 79 ∧
    (strip_sign (fixed.store (-9223372036854775808)).ff false).1 = -9223372036854775808 ∧
    ((fixed.store (-9223372036854775808)).operator_mul (fixed.store 256)).ff
      = 140737488355328 ∧
    Int.tdiv ((fixed.store (-9223372036854775808)).ff * (fixed.store 256).ff) (2 ^ 24)
      = -140737488355328 := by
  refine ⟨by decide, by decide, by decide, by decide, by decide, by decide, by decide,
    by decide, by decide⟩

/-! ## Error of the reduced multiply (C27) and multiplication by one (C28) -/

/-- The magnitude of a product is the shifted product of the reduced magnitudes,
for every pair of operands (the storage `-2^63` included) whose reduced product
is below `2^63`. -/
theorem fixed.operator_mul_abs_ff (a b : fixed)
    (h : shr |a.ff| 8 * shr |b.ff| 8 < 2 ^ 63) :
    |(a.operator_mul b).ff| = shr (shr |a.ff| 8 * shr |b.ff| 8) 8 := by
  have hra := a.inRange
  have hrb := b.inRange
  unfold InInt64 at hra hrb
  have hb0 : 0 ≤ shr |b.ff| 8 := Int.ediv_nonneg (abs_nonneg _) (by positivity)
  have ha0 : 0 ≤ shr |a.ff| 8 := Int.ediv_nonneg (abs_nonneg _) (by positivity)
  have c1 : shr (-2 ^ 63) 8 = -36028797018963968 := by decide
  have c2 : shr (2 ^ 63) 8 = 36028797018963968 := by decide
  by_cases ha : a.ff = -2 ^ 63
  · have hA : |a.ff| = 2 ^ 63 := by rw [ha]; norm_num
    rw [hA, c2] at h ⊢
    have hb1 : shr |b.ff| 8 < 2 ^ 8 := by
      simp only [shr] at h hb0 ⊢
      omega
    have hbm : b.ff ≠ -2 ^ 63 := by
      intro hb
      rw [hb] at hb1
      norm_num [shr] at hb1
    have hs : strip_sign a.ff false = (-2 ^ 63, true) := by
      rw [ha]
      decide
    simp only [fixed.operator_mul, hs, strip_sign_abs _ b.inRange hbm, c1]
    simp only [shr] at hb0 hb1 ⊢
    generalize |b.ff| / 2 ^ 8 = q at hb0 hb1 ⊢
    by_cases hneg : b.ff < 0
    · simp only [hneg, decide_True, Bool.xor_self, bne_self_eq_false, Bool.false_eq_true,
        if_false, fixed.store_ff, mul64, wrap64]
      rw [abs_of_nonpos (by omega)]
      omega
    · simp only [hneg, decide_False, Bool.xor_false, Bool.true_bne, Bool.not_false, if_true,
        fixed.store_ff, mul64, neg64, wrap64]
      rw [abs_of_nonneg (by omega)]
      omega
  by_cases hb : b.ff = -2 ^ 63
  · have hB : |b.ff| = 2 ^ 63 := by rw [hb]; norm_num
    rw [hB, c2] at h ⊢
    have ha1 : shr |a.ff| 8 < 2 ^ 8 := by
      simp only [shr] at h ha0 ⊢
      omega
    have hs : ∀ s, strip_sign b.ff s = (-2 ^ 63, xor s true) := by
      intro s
      rw [hb]
      cases s <;> decide
    simp only [fixed.operator_mul, hs, strip_sign_abs _ a.inRange ha, c1]
    simp only [shr] at ha0 ha1 ⊢
    generalize |a.ff| / 2 ^ 8 = q at ha0 ha1 ⊢
    by_cases hneg : a.ff < 0
    · simp only [hneg, decide_True, Bool.false_bne, Bool.xor_self, bne_self_eq_false,
        Bool.false_eq_true, if_false, fixed.store_ff, mul64, wrap64, Bool.xor_true,
        Bool.not_true, Bool.not_false, Bool.not_not, Bool.xor_false, bne_iff_ne, ne_eq,
        not_true_eq_false]
      rw [abs_of_nonpos (by omega)]
      omega
    · simp only [hneg, decide_False, Bool.xor_false, Bool.xor_true, Bool.not_false,
        Bool.true_bne, if_true, fixed.store_ff, mul64, neg64, wrap64]
      rw [abs_of_nonneg (by omega)]
      omega
  · have hv := (mul_core_value |a.ff| |b.ff| (abs_nonneg _) (abs_nonneg _) h).2.1
    rw [fixed.operator_mul_ff_scheme a b ha hb h, abs_mul, abs_of_nonneg hv]
    unfold parity_sign
    split_ifs <;> simp

/-- Error of the reduced product on split magnitudes `256 * a1 + a0` and
`256 * b1 + b0`. -/
theorem mul_error_core (a1 a0 b1 b0 : Int) (ha1 : 0 ≤ a1) (ha0 : 0 ≤ a0) (ha0u : a0 < 256)
    (hb1 : 0 ≤ b1) (hb0 : 0 ≤ b0) (hb0u : b0 < 256) :
    2 ^ 24 * (a1 * b1 / 2 ^ 8) ≤ (256 * a1 + a0) * (256 * b1 + b0) ∧
    (256 * a1 + a0) * (256 * b1 + b0) - 2 ^ 24 * (a1 * b1 / 2 ^ 8)
      < 2 ^ 8 * ((256 * a1 + a0) + (256 * b1 + b0)) + 2 ^ 25 := by
  have e : (256 * a1 + a0) * (256 * b1 + b0)
      = 65536 * (a1 * b1) + 256 * (a1 * b0) + 256 * (a0 * b1) + a0 * b0 := by ring
  have h1 : 0 ≤ a1 * b1 := mul_nonneg ha1 hb1
  have h2 : 0 ≤ a1 * b0 := mul_nonneg ha1 hb0
  have h3 : a1 * b0 ≤ a1 * 255 := mul_le_mul_of_nonneg_left (by omega) ha1
  have h4 : 0 ≤ a0 * b1 := mul_nonneg ha0 hb1
  have h5 : a0 * b1 ≤ 255 * b1 := mul_le_mul_of_nonneg_right (by omega) hb1
  have h6 : 0 ≤ a0 * b0 := mul_nonneg ha0 hb0
  have h7 : a0 * b0 ≤ 255 * 255 := mul_le_mul (by omega) (by omega) hb0 (by omega)
  rw [e]
  generalize a1 * b1 = P at h1 ⊢
  generalize a1 * b0 = u at h2 h3 ⊢
  generalize a0 * b1 = v at h4 h5 ⊢
  generalize a0 * b0 = w at h6 h7 ⊢
  constructor <;> omega

/-- Error of the reduced product on non-negative magnitudes. -/
theorem mul_error_bound (A B : Int) (hA : 0 ≤ A) (hB : 0 ≤ B) :
    2 ^ 24 * (A / 2 ^ 8 * (B / 2 ^ 8) / 2 ^ 8) ≤ A * B ∧
    A * B - 2 ^ 24 * (A / 2 ^ 8 * (B / 2 ^ 8) / 2 ^ 8) < 2 ^ 8 * (A + B) + 2 ^ 25 := by
  have hc := mul_error_core (A / 2 ^ 8) (A % 2 ^ 8) (B / 2 ^ 8) (B % 2 ^ 8)
    (by omega) (by omega) (by omega) (by omega) (by omega) (by omega)
  have eA : 256 * (A / 2 ^ 8) + A % 2 ^ 8 = A := by omega
  have eB : 256 * (B / 2 ^ 8) + B % 2 ^ 8 = B := by omega
  rw [eA, eB] at hc
  exact hc

/-- The two error bounds in the form of the claim, from the integer bounds. -/
theorem mul_error_rat (A B C : Int) (h1 : 2 ^ 24 * C ≤ A * B)
    (h2 : A * B - 2 ^ 24 * C < 2 ^ 8 * (A + B) + 2 ^ 25) :
    C ≤ A * B / 2 ^ 24 ∧
    ((A : ℚ) * (B : ℚ)) / 2 ^ 24 - (C : ℚ) < ((A : ℚ) + (B : ℚ)) / 2 ^ 16 + 2 := by
  constructor
  · apply Int.le_ediv_of_mul_le (by positivity)
    rw [mul_comm]
    exact h1
  · have h3 : ((A * B - 2 ^ 24 * C : Int) : ℚ) < ((2 ^ 8 * (A + B) + 2 ^ 25 : Int) : ℚ) := by
      exact_mod_cast h2
    push_cast at h3
    have hp : (0 : ℚ) < 2 ^ 24 := by positivity
    rw [← sub_pos]
    have e : ((A : ℚ) + (B : ℚ)) / 2 ^ 16 + 2 - ((A : ℚ) * (B : ℚ) / 2 ^ 24 - (C : ℚ))
        = ((2 ^ 8 * ((A : ℚ) + (B : ℚ)) + 2 ^ 25) - ((A : ℚ) * (B : ℚ) - 2 ^ 24 * (C : ℚ)))
            / 2 ^ 24 := by
      field_simp
      ring
    rw [e]
    exact div_pos (by linarith) hp

/-- C27: multiplication never overestimates and its error is bounded by the
operand sizes.  For every `a` and `b` whose reduced magnitudes have a product
below `2^63`: when both storages are non-negative, `C = (a * b).ff` satisfies
`C ≤ floor(a.ff * b.ff / 2^24)` and
`a.ff * b.ff / 2^24 - C < (a.ff + b.ff) / 2^16 + 2` over the rationals; and for
operands of any sign the same bounds hold for the magnitudes. -/
theorem C27_multiplication_error_bound (a b : fixed)
    (h : |a.ff| / 2 ^ 8 * (|b.ff| / 2 ^ 8) < 2 ^ 63) :
    (0 ≤ a.ff → 0 ≤ b.ff →
      (a.operator_mul b).ff ≤ a.ff * b.ff / 2 ^ 24 ∧
      ((a.ff : ℚ) * (b.ff : ℚ)) / 2 ^ 24 - ((a.operator_mul b).ff : ℚ)
        < ((a.ff : ℚ) + (b.ff : ℚ)) / 2 ^ 16 + 2) ∧
    (|(a.operator_mul b).ff| ≤ |a.ff| * |b.ff| / 2 ^ 24 ∧
      ((|a.ff| : Int) : ℚ) * ((|b.ff| : Int) : ℚ) / 2 ^ 24 - ((|(a.operator_mul b).ff| : Int) : ℚ)
        < (((|a.ff| : Int) : ℚ) + ((|b.ff| : Int) : ℚ)) / 2 ^ 16 + 2) := by
  have hm := fixed.operator_mul_abs_ff a b h
  simp only [shr] at hm
  have hb := mul_error_bound |a.ff| |b.ff| (abs_nonneg _) (abs_nonneg _)
  rw [← hm] at hb
  have hmag := mul_error_rat _ _ _ hb.1 hb.2
  refine ⟨?_, hmag⟩
  intro ha0 hb0
  have hr := a.inRange
  have hrb := b.inRange
  unfold InInt64 at hr hrb
  have hs := fixed.operator_mul_ff_scheme a b (by omega) (by omega) h
  have hp : parity_sign a.ff b.ff = 1 := by
    simp [parity_sign, not_lt.mpr ha0, not_lt.mpr hb0]
  rw [hp, one_mul] at hs
  have hnn : 0 ≤ (a.operator_mul b).ff := by
    rw [hs]
    exact (mul_core_value |a.ff| |b.ff| (abs_nonneg _) (abs_nonneg _) h).2.1
  rw [abs_of_nonneg ha0, abs_of_nonneg hb0, abs_of_nonneg hnn] at hmag
  exact hmag

/-- Witness for C27 at storages `2^24 + 255` and `3 * 2^24 + 255`
(non-negative), where the result loses the low bits of both operands. -/
theorem C27_multiplication_error_bound_witness :
    ((fixed.store 16777471).operator_mul (fixed.store 50331903)).ff
      ≤ (fixed.store 16777471).ff * (fixed.store 50331903).ff / 2 ^ 24 ∧
    (((fixed.store 16777471).ff : Int) : ℚ) * (((fixed.store 50331903).ff : Int) : ℚ) / 2 ^ 24
        - ((((fixed.store 16777471).operator_mul (fixed.store 50331903)).ff : Int) : ℚ)
      < ((((fixed.store 16777471).ff : Int) : ℚ) + (((fixed.store 50331903).ff : Int) : ℚ))
          / 2 ^ 16 + 2 :=
  (C27_multiplication_error_bound (fixed.store 16777471) (fixed.store 50331903)
    (by decide)).1 (by decide) (by decide)

theorem fixed.from_signed_one_ff : (fixed.from_signed 1).ff = 16777216 := by decide

/-- The storage of `a * fixed(1)`, by the sign of `a.ff`, for `|a.ff| < 2^55`. -/
theorem fixed.operator_mul_one_ff (a : fixed) (h : |a.ff| < 2 ^ 55) :
    (a.operator_mul (fixed.from_signed 1)).ff
      = if a.ff < 0 then -((-a.ff) / 2 ^ 8 * 2 ^ 8) else a.ff / 2 ^ 8 * 2 ^ 8 := by
  have h2 := abs_lt.mp h
  have h1 : shr |(fixed.from_signed 1).ff| 8 = 65536 := by decide
  have hq0 : 0 ≤ |a.ff| / 2 ^ 8 := Int.ediv_nonneg (abs_nonneg _) (by positivity)
  have hlt : shr |a.ff| 8 * shr |(fixed.from_signed 1).ff| 8 < 2 ^ 63 := by
    rw [h1]
    simp only [shr]
    omega
  rw [fixed.operator_mul_ff_scheme a _ (by omega) (by decide) hlt, h1,
    fixed.from_signed_one_ff]
  by_cases hneg : a.ff < 0
  · have hp : parity_sign a.ff 16777216 = -1 := by simp [parity_sign, hneg]
    rw [hp, if_pos hneg, abs_of_neg hneg]
    simp only [shr]
    omega
  · have hp : parity_sign a.ff 16777216 = 1 := by simp [parity_sign, hneg]
    rw [hp, if_neg hneg, abs_of_nonneg (not_lt.mp hneg)]
    simp only [shr]
    omega

/-- C28: `fixed(1)` is not a multiplicative identity.  For every `a` with
`|a.ff| < 2^55`, `(a * fixed(1)).ff` is `sign(a.ff) * ((|a.ff| >> 8) << 8)`; so
`a * fixed(1) == a` iff `|a.ff|` is a multiple of `2^8`; and multiplying by
`fixed(1)` is idempotent. -/
theorem C28_multiplication_by_one (a : fixed) (h : |a.ff| < 2 ^ 55) :
    (a.operator_mul (fixed.from_signed 1)).ff = Int.sign a.ff * (|a.ff| / 2 ^ 8 * 2 ^ 8) ∧
    ((a.operator_mul (fixed.from_signed 1)).operator_eq a = true ↔ |a.ff| % 2 ^ 8 = 0) ∧
    ((a.operator_mul (fixed.from_signed 1)).operator_mul (fixed.from_signed 1)).operator_eq
      (a.operator_mul (fixed.from_signed 1)) = true := by
  have h2 := abs_lt.mp h
  have e := fixed.operator_mul_one_ff a h
  have hc : |(a.operator_mul (fixed.from_signed 1)).ff| < 2 ^ 55 := by
    rw [e, abs_lt]
    split_ifs <;> constructor <;> omega
  have e2 := fixed.operator_mul_one_ff (a.operator_mul (fixed.from_signed 1)) hc
  refine ⟨?_, ?_, ?_⟩
  · rw [e]
    rcases lt_trichotomy a.ff 0 with hn | hz | hp
    · rw [if_pos hn, abs_of_neg hn, Int.sign_eq_neg_one_of_neg hn]
      ring
    · rw [hz]
      simp
    · rw [if_neg (by omega), abs_of_pos hp, Int.sign_eq_one_of_pos hp]
      ring
  · simp only [fixed.operator_eq, decide_eq_true_eq, e]
    rcases abs_cases a.ff with ⟨h1, _⟩ | ⟨h1, _⟩ <;> rw [h1] <;> split_ifs <;>
      constructor <;> intro _ <;> omega
  · simp only [fixed.operator_eq, decide_eq_true_eq]
    rw [e2, e]
    split_ifs <;> omega

/-- Witness for C28 at storage `-(2^24 + 255)`: the product with `fixed(1)` has
storage `-2^24`, which differs from the operand. -/
theorem C28_multiplication_by_one_witness :
    ((fixed.store (-16777471)).operator_mul (fixed.from_signed 1)).ff = -16777216 ∧
    ((fixed.store (-16777471)).operator_mul (fixed.from_signed 1)).operator_eq
      (fixed.store (-16777471)) = false :=
  ⟨(C28_multiplication_by_one (fixed.store (-16777471)) (by decide)).1.trans (by decide),
   by decide⟩

/-! ## Commutativity of the multiply (C31) and the sign-extraction step (C32) -/

/-- The working value left by sign extraction does not depend on the flag. -/
theorem strip_sign_fst (x : Int) (s : Bool) :
    (strip_sign x s).1 = if x < 0 then neg64 x else x := by
  unfold strip_sign
  split_ifs <;> rfl

/-- The flag after sign extraction is flipped exactly for a negative storage. -/
theorem strip_sign_snd (x : Int) (s : Bool) :
    (strip_sign x s).2 = xor s (decide (x < 0)) := by
  unfold strip_sign
  split_ifs with h <;> simp [h]

/-- C31: same-type multiplication is commutative for every pair of operands,
including those whose reduced product overflows: `a * b == b * a` under 64-bit
wrap-around arithmetic. -/
theorem C31_multiplication_commutative (a b : fixed) :
    a.operator_mul b = b.operator_mul a ∧
    (a.operator_mul b).operator_eq (b.operator_mul a) = true := by
  have h : a.operator_mul b = b.operator_mul a := by
    simp only [fixed.operator_mul, strip_sign_fst, strip_sign_snd, mul64]
    rw [mul_comm (shr (if a.ff < 0 then neg64 a.ff else a.ff) 8)
        (shr (if b.ff < 0 then neg64 b.ff else b.ff) 8),
      Bool.false_xor, Bool.false_xor, Bool.xor_comm (decide (a.ff < 0)) (decide (b.ff < 0))]
  refine ⟨h, ?_⟩
  rw [h]
  simp [fixed.operator_eq]

/-- C32 (evaluation of the code): the working value left by the sign-extraction
step `if(a < 0) a = -a` is negative exactly for the storage `-2^63`, whose 64-bit
negation is itself.  `fixed(int64_t(-2^39))` has that storage, so in
`operator *` and `operator /` the working magnitude of this operand is `-2^63`,
not a non-negative value; as a consequence `fixed(-2^39) * b` with `b` of storage
`2^8` is positive (`2^47`). -/
theorem C32_sign_extraction_at_min_storage :
    (∀ (a : fixed) (s : Bool), (strip_sign a.ff s).1 < 0 ↔ a.ff = -2 ^ 63) ∧
    (fixed.from_signed (-549755813888)).ff = -2 ^ 63 ∧
    (strip_sign (fixed.from_signed (-549755813888)).ff false).1 = -2 ^ 63 ∧
    (strip_sign (fixed.store 256).ff
      (strip_sign (fixed.from_signed (-549755813888)).ff false).2).1 = 256 ∧
    ((fixed.from_signed (-549755813888)).operator_mul (fixed.store 256)).ff
      = 140737488355328 := by
  refine ⟨?_, by decide, by decide, by decide, by decide⟩
  intro a s
  have hr := a.inRange
  unfold InInt64 at hr
  rw [strip_sign_fst]
  split_ifs with h
  · simp only [neg64, wrap64]
    constructor <;> intro _ <;> omega
  · constructor <;> intro _ <;> omega

end FixedQ
